import Mathlib

/-!
Verification of the block-compressed posting store and DAAT query engine of
the WSE-HW2 search engine, against its specification.

The C++ sources are shallowly embedded: machine integers become `Nat` (with
explicit wraparound where the code can overflow), streams become lists of
byte values, and the loops of the evaluators become fuel-indexed recursions
whose fuel sufficiency is proved separately.
-/

set_option maxHeartbeats 1000000

namespace varbyte

/-- Fuel-indexed body of the while loop of `varbyte::encode`
(include/varbyte.hpp): while `value >= 0x80`, emit `(value & 0x7F) | 0x80`
and shift the value right by 7; finally emit `value & 0x7F`.  The loop
strictly shrinks `value`, so `value` itself is enough fuel; the fuel-0
fallback emits the terminal byte and is unreachable under sufficient fuel
(`encodeAux_fuel`). -/
def encodeAux : ℕ → ℕ → List ℕ
  | 0, value => [value &&& 0x7F]
  | fuel+1, value =>
    if 0x80 ≤ value then ((value &&& 0x7F) ||| 0x80) :: encodeAux fuel (value >>> 7)
    else [value &&& 0x7F]

/-- `varbyte::encode` of one unsigned value. -/
def encode (value : ℕ) : List ℕ := encodeAux value value

/-- One byte read from an input stream, translated from the
`static_cast<unsigned char>(is.get())` in `varbyte::decode`:
`std::istream::get` at end of stream returns EOF (-1), and the cast to
`unsigned char` turns that into 0xFF. -/
def getByte : List ℕ → ℕ × List ℕ
  | [] => (0xFF, [])
  | b :: rest => (b, rest)

/-- Fuel-indexed body of the do/while loop of `varbyte::decode`
(include/varbyte.hpp): read a byte, OR its low 7 bits into `value` at
position `shift`, and continue while the continuation bit (0x80) is set.
`none` means the loop has not reached a terminal byte within `fuel`
iterations (the C++ loop would still be running). -/
def decodeAux : ℕ → List ℕ → ℕ → ℕ → Option (ℕ × List ℕ)
  | 0, _, _, _ => none
  | fuel+1, bs, value, shift =>
    let p := getByte bs
    let value2 := value ||| ((p.1 &&& 0x7F) <<< shift)
    if p.1 &&& 0x80 ≠ 0 then decodeAux fuel p.2 value2 (shift + 7)
    else some (value2, p.2)

/-- `varbyte::decode` on a byte stream: runs the do/while loop with enough
fuel to consume every byte of the stream plus one EOF read.  A well-formed
value parses without touching the EOF padding; a truncated stream makes the
C++ loop spin on EOF bytes forever, which surfaces here as `none`. -/
def decode (bs : List ℕ) : Option (ℕ × List ℕ) :=
  decodeAux (bs.length + 1) bs 0 0

end varbyte

namespace Merger

/-- `IndexMerger::BLOCK_SIZE` (src/web_server.cpp): number of postings per
block. -/
def BLOCK_SIZE : ℕ := 128

/-- Fuel-indexed version of the block loop of `IndexMerger::writeInvertedList`
(`for (size_t i = 0; i < postings.size(); i += BLOCK_SIZE)` with
`blockLen = min(BLOCK_SIZE, postings.size() - i)`): cut the posting list into
consecutive chunks of up to 128 entries.  The list length is enough fuel. -/
def toBlocksAux {α : Type} : ℕ → List α → List (List α)
  | 0, _ => []
  | _, [] => []
  | fuel+1, l => l.take BLOCK_SIZE :: toBlocksAux fuel (l.drop BLOCK_SIZE)

def toBlocks {α : Type} (l : List α) : List (List α) := toBlocksAux l.length l

/-- Gap sequence written by `IndexMerger::writeDocIDsBlock`
(src/web_server.cpp): `gap = (i == 0) ? docID : docID - prevDocID` with
`prevDocID` starting at 0, so the first gap is `docID - 0`, the absolute
first docID of the block. -/
def blockGapsAux (prevDocID : ℕ) : List ℕ → List ℕ
  | [] => []
  | docID :: rest => (docID - prevDocID) :: blockGapsAux docID rest

/-- Bytes emitted by `IndexMerger::writeDocIDsBlock` for one block:
`VarByte(block_len)` followed by the VarByte-coded gaps. -/
def writeDocIDsBlock (docIDs : List ℕ) : List ℕ :=
  varbyte.encode docIDs.length ++ ((blockGapsAux 0 docIDs).map varbyte.encode).flatten

/-- The full docID byte stream one term contributes to
`postings.docids.bin`: the concatenation of its blocks' byte images. -/
def writeDocIDs (docIDs : List ℕ) : List ℕ :=
  ((toBlocks docIDs).map writeDocIDsBlock).flatten

end Merger

namespace Cursor

/-- Decode `n` consecutive VarByte values from a byte stream, as the
`for (uint32_t i = 0; i < blockLen; i++)` decode loops of
`PostingList::loadNextBlock` (include/utils.hpp) do.  `none` when the stream
is truncated (the C++ decoder would spin forever, cf. the varbyte model). -/
def decodeValues : ℕ → List ℕ → Option (List ℕ × List ℕ)
  | 0, bs => some ([], bs)
  | n+1, bs =>
    match varbyte.decode bs with
    | none => none
    | some (v, rest) =>
      match decodeValues n rest with
      | none => none
      | some (vs, rest2) => some (v :: vs, rest2)

/-- Absolute docID reconstruction of `PostingList::loadNextBlock`:
`docID = (i == 0) ? gap : prevDocID + gap` with `prevDocID` starting at 0
(so the first docID equals its gap). -/
def undeltasAux (prevDocID : ℕ) : List ℕ → List ℕ
  | [] => []
  | gap :: gaps => (prevDocID + gap) :: undeltasAux (prevDocID + gap) gaps

/-- Iterating the docID side of `PostingList::loadNextBlock` over `blocks`
blocks of the byte stream: each iteration reads `VarByte(block_len)`, then
`block_len` gaps, and prefix-sums them with the gap base reset to 0. -/
def loadDocIDBlocks : ℕ → List ℕ → Option (List ℕ)
  | 0, _ => some []
  | b+1, bs =>
    match varbyte.decode bs with
    | none => none
    | some (blockLen, r1) =>
      match decodeValues blockLen r1 with
      | none => none
      | some (gaps, r2) =>
        match loadDocIDBlocks b r2 with
        | none => none
        | some ds => some (undeltasAux 0 gaps ++ ds)

end Cursor

/-- State of the `PostingList` cursor (include/utils.hpp).  The two aligned
on-disk block streams, together with the `currentBlock`/`totalBlocks`
counters, are modeled by `restBlocks`: the sequence of blocks not yet
loaded, each block already decoded into aligned `(docID, freq)` pairs
(`loadDocIDBlocks_writeDocIDs` covers the byte-level decoding, and
`loadNextBlock` fails hard on a docID/freq block length mismatch, which the
merger's aligned writes never produce).  `buffer` holds the current block's
`docIDsBuffer`/`freqsBuffer` contents, so the source's `blockLen` is
`buffer.length`. -/
structure PostingList where
  buffer : List (ℕ × ℕ)
  blockPos : ℕ
  restBlocks : List (List (ℕ × ℕ))
  currentDocID : ℕ
  currentFreq : ℕ
  hasMore : Bool
deriving Repr, DecidableEq

namespace PostingList

/-- `PostingList::loadNextBlock`: with no block left (`currentBlock >=
totalBlocks`) clear `hasMore` and fail; otherwise fill the buffers from the
next block and reset `blockPos`. -/
def loadNextBlock (c : PostingList) : PostingList × Bool :=
  match c.restBlocks with
  | [] => ({ c with hasMore := false }, false)
  | b :: rest => ({ c with buffer := b, blockPos := 0, restBlocks := rest }, true)

/-- `PostingList::next`: advance `blockPos`; inside the block refresh the
current posting from the buffers; at the block end load the next block and,
if it is nonempty (`blockLen > 0`), restart at its first posting; otherwise
invalidate. -/
def next (c : PostingList) : PostingList × Bool :=
  if c.hasMore = false then (c, false)
  else
    match c.buffer[c.blockPos + 1]? with
    | some df =>
      ({ c with blockPos := c.blockPos + 1,
                currentDocID := df.1, currentFreq := df.2 }, true)
    | none =>
      match loadNextBlock { c with blockPos := c.blockPos + 1 } with
      | (c2, true) =>
        match c2.buffer[0]? with
        | some df => ({ c2 with currentDocID := df.1, currentFreq := df.2 }, true)
        | none => ({ c2 with hasMore := false }, false)
      | (c2, false) => ({ c2 with hasMore := false }, false)

/-- `PostingList::doc`. -/
def doc (c : PostingList) : ℕ := c.currentDocID

/-- `PostingList::freq`. -/
def freq (c : PostingList) : ℕ := c.currentFreq

/-- `PostingList::valid`. -/
def valid (c : PostingList) : Bool := c.hasMore

/-- The postings the cursor still ranges over, current one first: the rest
of the current block from `blockPos` on, then the unloaded blocks.  An
invalidated cursor ranges over nothing. -/
def toList (c : PostingList) : List (ℕ × ℕ) :=
  if c.hasMore then c.buffer.drop c.blockPos ++ c.restBlocks.flatten else []

/-- Fuel-indexed while loop of `PostingList::nextGEQ`:
`while (hasMore && currentDocID < target) { if (!next()) return false; }
return hasMore && currentDocID >= target;`.  Each `next` consumes one
posting, so the remaining posting count bounds the iterations. -/
def nextGEQAux : ℕ → PostingList → ℕ → PostingList × Bool
  | 0, c, _ => (c, false)
  | fuel+1, c, target =>
    if c.hasMore && decide (c.currentDocID < target) then
      match c.next with
      | (c2, true) => nextGEQAux fuel c2 target
      | (c2, false) => (c2, false)
    else (c, c.hasMore && decide (target ≤ c.currentDocID))

/-- `PostingList::nextGEQ` (the loop always terminates within
`toList.length + 1` iterations: `nextGEQAux_spec`). -/
def nextGEQ (c : PostingList) (target : ℕ) : PostingList × Bool :=
  nextGEQAux (c.toList.length + 1) c target

/-- `PostingList::open`, starting from the decoded block sequence of a term:
set `hasMore`, load the first block, and position on its first posting;
`none` models `open` returning `false` (no block, or an empty first
block). -/
def openBlocks (blocks : List (List (ℕ × ℕ))) : Option PostingList :=
  let c0 : PostingList :=
    { buffer := [], blockPos := 0, restBlocks := blocks,
      currentDocID := 0, currentFreq := 0, hasMore := true }
  match c0.loadNextBlock with
  | (_, false) => none
  | (c1, true) =>
    match c1.buffer[0]? with
    | some df => some { c1 with currentDocID := df.1, currentFreq := df.2 }
    | none => none

/-- Cursor well-formedness, maintained by `open` and `next`: a valid cursor
sits on an in-range buffer position whose entry is the current posting, and
blocks still to be loaded are nonempty (the merger never writes an empty
block). -/
def WF (c : PostingList) : Prop :=
  (c.hasMore = true → c.blockPos < c.buffer.length ∧
    c.buffer[c.blockPos]? = some (c.currentDocID, c.currentFreq)) ∧
  ∀ b ∈ c.restBlocks, b ≠ []

instance (c : PostingList) : Decidable c.WF := by
  unfold WF
  infer_instance

/-- Strictly ascending docIDs over the cursor's remaining postings. -/
def Ascending (c : PostingList) : Prop :=
  List.Pairwise (fun p q : ℕ × ℕ => p.1 < q.1) c.toList

instance (c : PostingList) : Decidable c.Ascending := by
  unfold Ascending
  infer_instance

end PostingList

namespace Querier

/-- `UINT32_MAX`, the sentinel of `QueryEvaluator::evaluateOR`. -/
def UINT32_MAX : ℕ := 4294967295

/-- The `minDoc` scan of `QueryEvaluator::evaluateOR` (include/querier.hpp):
`minDoc = UINT32_MAX; for i: if (lists[i].valid() && lists[i].doc() < minDoc)
minDoc = lists[i].doc();`. -/
def minDocOf (lists : List PostingList) : ℕ :=
  lists.foldl
    (fun m l => if l.hasMore && decide (l.currentDocID < m) then l.currentDocID else m)
    UINT32_MAX

/-- The scoring/advancing pass of `evaluateOR`, position-indexed from `i`:
for every cursor that is valid and sits on `minDoc`, add its BM25
contribution and advance it.  `score i tf d` abstracts
`bm25::score(idfs[i], tf, docLen.len(d), stats.avgdl, bm25Params)`: the BM25
arithmetic runs on IEEE doubles, so the per-(cursor, tf, doc) contribution is
kept abstract as a rational. -/
def orStep (score : ℕ → ℕ → ℕ → ℚ) (minDoc : ℕ) :
    ℕ → List PostingList → List PostingList × ℚ
  | _, [] => ([], 0)
  | i, l :: rest =>
    let r := orStep score minDoc (i+1) rest
    if l.hasMore && decide (l.currentDocID = minDoc) then
      ((l.next).1 :: r.1, score i l.currentFreq minDoc + r.2)
    else (l :: r.1, r.2)

/-- Fuel-indexed DAAT-OR loop of `QueryEvaluator::evaluateOR`, returning the
sequence of `(minDoc, score)` candidates it offers to the top-K heap.
`none` only on fuel exhaustion — never with the fuel used by `evaluateOR`
(`orTrace_some`). -/
def orTrace (score : ℕ → ℕ → ℕ → ℚ) : ℕ → List PostingList → Option (List (ℕ × ℚ))
  | 0, _ => none
  | fuel+1, lists =>
    let minDoc := minDocOf lists
    if minDoc = UINT32_MAX then some []
    else
      let r := orStep score minDoc 0 lists
      match orTrace score fuel r.1 with
      | none => none
      | some tr => some ((minDoc, r.2) :: tr)

/-- The `maxDoc` scan of `QueryEvaluator::evaluateAND`: `maxDoc = 0;` then
take every valid cursor's doc into the running maximum.  (The enclosing loop
breaks beforehand when some cursor is invalid, so this is only used with all
cursors valid.) -/
def maxDocOf (lists : List PostingList) : ℕ :=
  lists.foldl (fun m l => if decide (m < l.currentDocID) then l.currentDocID else m) 0

/-- The alignment pass of `evaluateAND`: for each cursor with
`doc() < maxDoc` call `nextGEQ(maxDoc)`, breaking out (`allMatch = false`)
as soon as a cursor dies or lands past `maxDoc`; cursors after the break are
left untouched. -/
def andAlign : List PostingList → ℕ → List PostingList × Bool
  | [], _ => ([], true)
  | l :: rest, maxDoc =>
    if decide (l.currentDocID < maxDoc) then
      match l.nextGEQ maxDoc with
      | (l2, false) => (l2 :: rest, false)
      | (l2, true) =>
        if decide (l2.currentDocID ≠ maxDoc) then (l2 :: rest, false)
        else
          let r := andAlign rest maxDoc
          (l2 :: r.1, r.2)
    else
      if decide (l.currentDocID ≠ maxDoc) then (l :: rest, false)
      else
        let r := andAlign rest maxDoc
        (l :: r.1, r.2)

/-- The scoring pass of `evaluateAND` once every cursor reports `maxDoc`:
sum the per-cursor contributions (same abstraction of `bm25::score` as in
`orStep`). -/
def andScore (score : ℕ → ℕ → ℕ → ℚ) (maxDoc : ℕ) : ℕ → List PostingList → ℚ
  | _, [] => 0
  | i, l :: rest => score i l.currentFreq maxDoc + andScore score maxDoc (i+1) rest

/-- `for (...) lists[i].next();` -/
def nextAll (lists : List PostingList) : List PostingList :=
  lists.map (fun l => (l.next).1)

/-- `for (auto& l : lists) l.nextGEQ(t);` -/
def nextGEQAll (lists : List PostingList) (t : ℕ) : List PostingList :=
  lists.map (fun l => (l.nextGEQ t).1)

/-- Fuel-indexed DAAT-AND loop of `QueryEvaluator::evaluateAND`, returning
the `(maxDoc, score)` candidates offered to the heap.  In the overshoot
branch the source advances every cursor with `nextGEQ(maxDoc + 1)` on
`uint32_t`, so the target wraps modulo `2 ^ 32`. -/
def andTrace (score : ℕ → ℕ → ℕ → ℚ) : ℕ → List PostingList → Option (List (ℕ × ℚ))
  | 0, _ => none
  | fuel+1, lists =>
    if lists.all (fun l => l.hasMore) = false then some []
    else
      let maxDoc := maxDocOf lists
      let r := andAlign lists maxDoc
      if r.2 = false then
        andTrace score fuel (nextGEQAll r.1 ((maxDoc + 1) % 2 ^ 32))
      else
        match andTrace score fuel (nextAll r.1) with
        | none => none
        | some tr => some ((maxDoc, andScore score maxDoc 0 r.1) :: tr)

/-- `topK.top().score` for the `std::priority_queue<QueryResult>` min-heap
(its `operator<` inverts the score order, so the top is a minimal-score
element); only meaningful on a nonempty heap. -/
def heapMinScore : List (ℕ × ℚ) → ℚ
  | [] => 0
  | p :: rest => rest.foldl (fun m q => min m q.2) p.2

/-- `topK.pop()`: removes one minimal-score element. -/
def removeMinByScore (h : List (ℕ × ℚ)) : List (ℕ × ℚ) :=
  h.eraseP (fun p => decide (p.2 = heapMinScore h))

/-- The heap update of both evaluators:
`if (topK.size() < k) push; else if (score > topK.top().score) { pop; push; }`.
The heap is modeled as the list of its elements (which elements the heap
holds is all the claims use; the drain order is a function of them).
`none` models the undefined behavior of reading `topK.top()` on an empty
heap, which happens exactly when the size bound is 0. -/
def offer (bound : ℕ) (heap : List (ℕ × ℚ)) (d : ℕ) (s : ℚ) :
    Option (List (ℕ × ℚ)) :=
  if heap.length < bound then some ((d, s) :: heap)
  else
    match heap with
    | [] => none
    | _ :: _ => if heapMinScore heap < s then some ((d, s) :: removeMinByScore heap)
                else some heap

/-- `static_cast<size_t>(k)` for the `int k` parameter: two's-complement
conversion to the unsigned 64-bit `size_t`. -/
def sizeTCast (k : ℤ) : ℕ := (k % (2 ^ 64 : ℤ)).toNat

/-- Folding the offered candidates through the heap update, as the evaluator
loops do. -/
def topKOf (bound : ℕ) (tr : List (ℕ × ℚ)) : Option (List (ℕ × ℚ)) :=
  tr.foldlM (fun h p => offer bound h p.1 p.2) []

/-- Total number of postings the cursors still range over: the fuel bound
for both DAAT loops. -/
def totalRemaining (lists : List PostingList) : ℕ :=
  (lists.map (fun l => l.toList.length)).sum

/-- `QueryEvaluator::evaluateOR`: run the DAAT-OR loop and the top-K heap.
`none` can only arise from the empty-heap undefined behavior (`k = 0`). -/
def evaluateOR (score : ℕ → ℕ → ℕ → ℚ) (lists : List PostingList) (k : ℤ) :
    Option (List (ℕ × ℚ)) :=
  match orTrace score (totalRemaining lists + 1) lists with
  | none => none
  | some tr => topKOf (sizeTCast k) tr

/-- `QueryEvaluator::evaluateAND`, same shape. -/
def evaluateAND (score : ℕ → ℕ → ℕ → ℚ) (lists : List PostingList) (k : ℤ) :
    Option (List (ℕ × ℚ)) :=
  match andTrace score (totalRemaining lists + 1) lists with
  | none => none
  | some tr => topKOf (sizeTCast k) tr

/-- The OR evaluator "with unbounded k": the heap bound is at least the
number of candidates, so the heap never evicts and never reads an empty
top. -/
def evaluateORUnbounded (score : ℕ → ℕ → ℕ → ℚ) (lists : List PostingList) :
    Option (List (ℕ × ℚ)) :=
  match orTrace score (totalRemaining lists + 1) lists with
  | none => none
  | some tr => topKOf tr.length tr

/-- The cursor-opening loop of `QueryEvaluator::processQuery`
(include/querier.hpp, lines 299-309): for each query term in order, look it
up (`index` abstracts `lexicon.find` plus the on-disk posting data as the
decoded block sequence of the term) and open a cursor; terms missing from
the lexicon or failing to open are silently dropped.  One cursor is opened
PER OCCURRENCE of a term in `queryTerms`. -/
def openCursors (index : String → Option (List (List (ℕ × ℕ))))
    (queryTerms : List String) : List PostingList :=
  queryTerms.filterMap (fun t => (index t).bind PostingList.openBlocks)

set_option linter.unusedVariables false in
/-- `QueryEvaluator::processQuery`: open the cursors, return `{}` when none
opened, compute `lowerMode` (a lowercased copy of `mode` that the source
never reads), and dispatch on `mode == "and"` — an exact, case-sensitive
comparison; every other mode string falls to the OR evaluator. -/
def processQuery (score : ℕ → ℕ → ℕ → ℚ)
    (index : String → Option (List (List (ℕ × ℕ))))
    (queryTerms : List String) (mode : String) (k : ℤ) :
    Option (List (ℕ × ℚ)) :=
  let lists := openCursors index queryTerms
  if lists.isEmpty then some []
  else
    let lowerMode := mode.map Char.toLower
    if mode == "and" then evaluateAND score lists k
    else evaluateOR score lists k

/-- The frequency paired with docID `d` in a posting-list view (0 when
absent); with strictly ascending docIDs this is the unique `tf` of `d`. -/
def freqAt (v : List (ℕ × ℕ)) (d : ℕ) : ℕ :=
  ((v.find? (fun p => p.1 == d)).map Prod.snd).getD 0

/-- Hypotheses under which the evaluators are verified: a cursor that is
well-formed, whose docIDs ascend strictly, and whose docIDs stay below the
`UINT32_MAX` sentinel (the index assigns docIDs densely in `[0, N)`). -/
def GoodCursor (l : PostingList) : Prop :=
  l.WF ∧ l.Ascending ∧ ∀ p ∈ l.toList, p.1 < UINT32_MAX

instance (l : PostingList) : Decidable (GoodCursor l) := by
  unfold GoodCursor
  infer_instance

/-- Reference sum for the OR score of doc `d`, position-indexed from `i`:
each view containing `d` contributes its term's BM25 value. -/
def sumScoreOr (score : ℕ → ℕ → ℕ → ℚ) (d : ℕ) :
    ℕ → List (List (ℕ × ℕ)) → ℚ
  | _, [] => 0
  | i, v :: vs =>
    (if d ∈ v.map Prod.fst then score i (freqAt v d) d else 0)
      + sumScoreOr score d (i+1) vs

end Querier

namespace Merger

/-- `std::stoul` on a field (as the merger's line parser calls it): skip
whitespace, accept an optional sign, parse base-10 digits.  `none` models a
thrown exception — `std::invalid_argument` when no digits are found, or
`std::out_of_range` past `ULONG_MAX`; a parsed negative wraps into the
unsigned range. -/
def stoulModel (s : List Char) : Option ℕ :=
  let cs := s.dropWhile (fun ch => ch.isWhitespace)
  let r : Bool × List Char :=
    match cs with
    | '-' :: rest => (true, rest)
    | '+' :: rest => (false, rest)
    | _ => (false, cs)
  let digits := (r.2.takeWhile (fun ch => ch.isDigit))
  if digits.isEmpty then none
  else
    let v := digits.foldl (fun acc ch => 10 * acc + (ch.toNat - 48)) 0
    if v < 2 ^ 64 then some (if r.1 then (2 ^ 64 - v) % 2 ^ 64 else v)
    else none

/-- Outcome of the merger's per-line parse (`IndexMerger::process`,
src/web_server.cpp). -/
inductive MergerLine where
  | skipBlank : MergerLine
  | malformed : MergerLine
  | aborted : MergerLine
  | posting : String → ℕ → ℕ → MergerLine
deriving Repr, DecidableEq

/-- One iteration of the merger's input loop: empty and `#` lines are
silently skipped; lines without two TABs are logged as
`Warning: malformed line` and skipped (`.malformed`); otherwise the docID
and tf fields go straight to `std::stoul` with no try/catch anywhere on the
path, so a non-numeric field throws and the exception escapes `process` and
`main` (`.aborted`: `std::terminate`).  Parsed values are truncated to
`uint32_t`. -/
def parsePostingLine (line : String) : MergerLine :=
  let cs := line.toList
  if cs.isEmpty then .skipBlank
  else if cs.headD ' ' = '#' then .skipBlank
  else
    match cs.findIdx? (fun ch => ch = '\t') with
    | none => .malformed
    | some tab1 =>
      match (cs.drop (tab1 + 1)).findIdx? (fun ch => ch = '\t') with
      | none => .malformed
      | some tab2off =>
        let term := cs.take tab1
        let f2 := (cs.drop (tab1 + 1)).take tab2off
        let f3 := (cs.drop (tab1 + 1)).drop (tab2off + 1)
        match stoulModel f2 with
        | none => .aborted
        | some docID =>
          match stoulModel f3 with
          | none => .aborted
          | some tf => .posting (String.mk term) (docID % 2 ^ 32) (tf % 2 ^ 32)

/-- The merger's scan over its input lines: a thrown parse exception kills
the whole run (`none`); skipped lines just disappear from the posting
stream. -/
def mergerScan : List String → Option (List (String × ℕ × ℕ))
  | [] => some []
  | ln :: rest =>
    match parsePostingLine ln with
    | .aborted => none
    | .posting t d f =>
      match mergerScan rest with
      | none => none
      | some ps => some ((t, d, f) :: ps)
    | _ => mergerScan rest

end Merger

namespace Fixtures

/-- A concrete well-formed cursor: current block `[(3,1), (9,2), (17,3)]` at
position 0, one unloaded block `[(40,1)]`; its remaining postings are
`[(3,1), (9,2), (17,3), (40,1)]`. -/
def cursorA : PostingList :=
  { buffer := [(3, 1), (9, 2), (17, 3)], blockPos := 0,
    restBlocks := [[(40, 1)]], currentDocID := 3, currentFreq := 1,
    hasMore := true }

/-- A concrete cursor over the postings `[(0,1), (1,2)]`. -/
def cursorB : PostingList :=
  { buffer := [(0, 1), (1, 2)], blockPos := 0, restBlocks := [],
    currentDocID := 0, currentFreq := 1, hasMore := true }

/-- A concrete cursor over the single posting `[(1,3)]`. -/
def cursorC : PostingList :=
  { buffer := [(1, 3)], blockPos := 0, restBlocks := [],
    currentDocID := 1, currentFreq := 3, hasMore := true }

/-- A concrete cursor over `[(0,1), (5,1)]`: aligning it to docID 2 makes it
overshoot to 5. -/
def cursorD : PostingList :=
  { buffer := [(0, 1), (5, 1)], blockPos := 0, restBlocks := [],
    currentDocID := 0, currentFreq := 1, hasMore := true }

/-- A concrete cursor over `[(2,1), (7,1)]`. -/
def cursorE : PostingList :=
  { buffer := [(2, 1), (7, 1)], blockPos := 0, restBlocks := [],
    currentDocID := 2, currentFreq := 1, hasMore := true }

/-- A one-term index: term `a` has the single posting `(0, 1)`. -/
def idxA : String → Option (List (List (ℕ × ℕ))) :=
  fun t => if t = "a" then some [[(0, 1)]] else none

/-- A two-term index: term `a` posts on docID 0, term `b` on docID 1. -/
def idxAB : String → Option (List (List (ℕ × ℕ))) :=
  fun t =>
    if t = "a" then some [[(0, 1)]]
    else if t = "b" then some [[(1, 1)]]
    else none

end Fixtures

namespace varbyte

/-- Low seven bits are the value mod 128. -/
theorem and_7f (v : ℕ) : v &&& 0x7F = v % 128 := by
  have h := Nat.and_pow_two_sub_one_eq_mod v 7
  norm_num at h
  exact h

/-- Shifting right by 7 divides by 128. -/
theorem shr7 (v : ℕ) : v >>> 7 = v / 128 := by
  have h := Nat.shiftRight_eq_div_pow v 7
  norm_num at h
  exact h

/-- `encodeAux` is fuel-irrelevant once the fuel covers the value. -/
theorem encodeAux_fuel (value : ℕ) :
    ∀ fuel1 fuel2, value ≤ fuel1 → value ≤ fuel2 →
      encodeAux fuel1 value = encodeAux fuel2 value := by
  induction value using Nat.strong_induction_on with
  | _ value ih =>
    intro fuel1 fuel2 h1 h2
    by_cases h : 0x80 ≤ value
    · obtain ⟨f1, rfl⟩ : ∃ f, fuel1 = f + 1 := by
        cases fuel1 with
        | zero => omega
        | succ f => exact ⟨f, rfl⟩
      obtain ⟨f2, rfl⟩ : ∃ f, fuel2 = f + 1 := by
        cases fuel2 with
        | zero => omega
        | succ f => exact ⟨f, rfl⟩
      simp only [encodeAux, if_pos h]
      have hd : value >>> 7 < value := by
        rw [shr7]
        omega
      have hd1 : value >>> 7 ≤ f1 := by
        rw [shr7]
        omega
      have hd2 : value >>> 7 ≤ f2 := by
        rw [shr7]
        omega
      rw [ih (value >>> 7) hd f1 f2 hd1 hd2]
    · cases fuel1 with
      | zero => cases fuel2 with
        | zero => rfl
        | succ f2 => simp only [encodeAux, if_neg h]
      | succ f1 => cases fuel2 with
        | zero => simp only [encodeAux, if_neg h]
        | succ f2 => simp only [encodeAux, if_neg h]

theorem encode_unfold (value : ℕ) :
    encode value =
      if 0x80 ≤ value then ((value &&& 0x7F) ||| 0x80) :: encode (value >>> 7)
      else [value &&& 0x7F] := by
  by_cases h : 0x80 ≤ value
  · obtain ⟨n, rfl⟩ : ∃ n, value = n + 1 := by
      cases value with
      | zero => omega
      | succ n => exact ⟨n, rfl⟩
    rw [encode, encodeAux, if_pos h, if_pos h, encode]
    have hd1 : (n + 1) >>> 7 ≤ n := by
      rw [shr7]
      omega
    rw [encodeAux_fuel ((n + 1) >>> 7) n ((n + 1) >>> 7) hd1 le_rfl]
  · cases value with
    | zero => rfl
    | succ n => rw [encode, encodeAux, if_neg h, if_neg h]

/-- Bitwise OR with a multiple of `2 ^ s` is addition when the other operand
fits below `2 ^ s`. -/
theorem lor_mul_two_pow {a : ℕ} (b : ℕ) {s : ℕ} (h : a < 2 ^ s) :
    a ||| b * 2 ^ s = a + b * 2 ^ s := by
  induction s generalizing a b with
  | zero =>
    interval_cases a
    simp
  | succ s ih =>
    have hy2 : b * 2 ^ (s + 1) / 2 = b * 2 ^ s := by
      rw [pow_succ, ← mul_assoc]
      exact Nat.mul_div_cancel _ (by norm_num)
    have hymod : b * 2 ^ (s + 1) % 2 = 0 := by
      rw [pow_succ, ← mul_assoc]
      exact Nat.mul_mod_left _ _
    have ha2 : a / 2 < 2 ^ s := by
      rw [pow_succ] at h
      omega
    have hdiv : (a ||| b * 2 ^ (s + 1)) / 2 = a / 2 + b * 2 ^ s := by
      rw [Nat.or_div_two, hy2]
      exact ih b ha2
    have hmod : (a ||| b * 2 ^ (s + 1)) % 2 = a % 2 := by
      have hiff := Nat.or_mod_two_eq_one (a := a) (b := b * 2 ^ (s + 1))
      by_cases hb1 : a % 2 = 1
      · have h1 := hiff.mpr (Or.inl hb1)
        omega
      · have h0 : ¬ ((a ||| b * 2 ^ (s + 1)) % 2 = 1) := by
          intro hc
          rcases hiff.mp hc with hx | hx
          · exact hb1 hx
          · omega
        have hl1 : (a ||| b * 2 ^ (s + 1)) % 2 < 2 := Nat.mod_lt _ (by norm_num)
        have hl2 : a % 2 < 2 := Nat.mod_lt _ (by norm_num)
        omega
    have hsplit := Nat.div_add_mod (a ||| b * 2 ^ (s + 1)) 2
    have hs : b * 2 ^ (s + 1) = (b * 2 ^ s) * 2 := by
      rw [pow_succ, mul_assoc]
    have hsplita := Nat.div_add_mod a 2
    omega

/-- OR-ing in the continuation bit: for a 7-bit payload `x`,
`x ||| 0x80 = x + 128`. -/
theorem lor_80 {x : ℕ} (h : x < 128) : x ||| 0x80 = x + 128 := by
  have h2 := lor_mul_two_pow (a := x) 1 (s := 7) (by omega)
  norm_num at h2
  exact h2

/-- A byte below 0x80 has the continuation bit clear. -/
theorem and_80_of_lt {x : ℕ} (h : x < 128) : x &&& 0x80 = 0 := by
  have h2 : x &&& 2 ^ 7 = (x.testBit 7).toNat * 2 ^ 7 := Nat.and_two_pow x 7
  have h3 : x.testBit 7 = false := Nat.testBit_lt_two_pow (by omega)
  rw [h3] at h2
  norm_num at h2
  exact h2

/-- A byte of the form `x + 128` with `x < 128` has the continuation bit
set. -/
theorem and_80_of_cont {x : ℕ} (h : x < 128) : (x + 128) &&& 0x80 = 128 := by
  have h2 : (x + 128) &&& 2 ^ 7 = ((x + 128).testBit 7).toNat * 2 ^ 7 :=
    Nat.and_two_pow (x + 128) 7
  have h3 : (x + 128).testBit 7 = true := by
    rw [Nat.testBit_to_div_mod]
    simp only [decide_eq_true_eq]
    norm_num
    omega
  rw [h3] at h2
  norm_num at h2
  exact h2

/-- Arithmetic form of one encoding step. -/
theorem encode_eq_arith (v : ℕ) :
    encode v = if 128 ≤ v then (v % 128 + 128) :: encode (v / 128)
               else [v] := by
  rw [encode_unfold]
  by_cases h : 128 ≤ v
  · have h80 : (0x80 : ℕ) ≤ v := by omega
    rw [if_pos h80, if_pos h, and_7f, shr7, lor_80 (Nat.mod_lt _ (by norm_num))]
  · have h80 : ¬ (0x80 : ℕ) ≤ v := by omega
    rw [if_neg h80, if_neg h, and_7f, Nat.mod_eq_of_lt (by omega)]

theorem encode_ne_nil (v : ℕ) : encode v ≠ [] := by
  rw [encode_eq_arith]
  by_cases h : 128 ≤ v <;> simp [h]

/-- Every byte that `encode` emits is a byte value (`< 256`). -/
theorem encode_bytes_lt (v : ℕ) : ∀ b ∈ encode v, b < 256 := by
  induction v using Nat.strong_induction_on with
  | _ v ih =>
    rw [encode_eq_arith]
    by_cases h : 128 ≤ v
    · simp only [if_pos h, List.mem_cons]
      rintro b (rfl | hb)
      · omega
      · exact ih (v / 128) (by omega) b hb
    · simp only [if_neg h, List.mem_singleton]
      rintro b rfl
      omega

/-- Main decoding lemma: decoding the bytes of `encode v` (followed by any
trailing bytes) with at least `(encode v).length` fuel terminates right after
the encoded bytes and adds `v * 2 ^ shift` into the accumulator. -/
theorem decodeAux_encode (v : ℕ) :
    ∀ (fuel value shift : ℕ) (rest : List ℕ),
      (encode v).length ≤ fuel → value < 2 ^ shift →
      decodeAux fuel (encode v ++ rest) value shift =
        some (value + v * 2 ^ shift, rest) := by
  induction v using Nat.strong_induction_on with
  | _ v ih =>
    intro fuel value shift rest hfuel hvalue
    by_cases h : 128 ≤ v
    · have henc : encode v = (v % 128 + 128) :: encode (v / 128) := by
        rw [encode_eq_arith, if_pos h]
      rw [henc] at hfuel ⊢
      obtain ⟨fuel, rfl⟩ : ∃ f, fuel = f + 1 := by
        cases fuel with
        | zero => simp at hfuel
        | succ f => exact ⟨f, rfl⟩
      simp only [List.length_cons, Nat.add_le_add_iff_right] at hfuel
      simp only [decodeAux, List.cons_append, getByte]
      have hmod : v % 128 < 128 := Nat.mod_lt _ (by norm_num)
      have hcont : (v % 128 + 128) &&& 0x80 ≠ 0 := by
        rw [and_80_of_cont hmod]
        omega
      rw [if_pos hcont]
      have hand : (v % 128 + 128) &&& 0x7F = v % 128 := by
        rw [and_7f]
        omega
      have hlow : value ||| (v % 128) <<< shift
          = value + (v % 128) * 2 ^ shift := by
        rw [Nat.shiftLeft_eq]
        exact lor_mul_two_pow (v % 128) hvalue
      have hp : (2 : ℕ) ^ (shift + 7) = 2 ^ shift * 128 := by
        rw [pow_add]
        norm_num
      have hrec := ih (v / 128) (by omega) fuel
        (value + (v % 128) * 2 ^ shift) (shift + 7) rest hfuel
        (by
          have hb : v % 128 * 2 ^ shift ≤ 127 * 2 ^ shift :=
            Nat.mul_le_mul_right _ (by omega)
          omega)
      simp only [hand, hlow]
      rw [hrec]
      have hsum : value + v % 128 * 2 ^ shift + v / 128 * 2 ^ (shift + 7)
          = value + v * 2 ^ shift := by
        rw [hp]
        have hv : v % 128 + 128 * (v / 128) = v := Nat.mod_add_div v 128
        calc value + v % 128 * 2 ^ shift + v / 128 * (2 ^ shift * 128)
            = value + (v % 128 + 128 * (v / 128)) * 2 ^ shift := by ring
          _ = value + v * 2 ^ shift := by rw [hv]
      rw [hsum]
    · push_neg at h
      have henc : encode v = [v] := by
        rw [encode_eq_arith, if_neg (by omega)]
      rw [henc] at hfuel ⊢
      obtain ⟨fuel, rfl⟩ : ∃ f, fuel = f + 1 := by
        cases fuel with
        | zero => simp at hfuel
        | succ f => exact ⟨f, rfl⟩
      simp only [decodeAux, List.cons_append, getByte]
      have hterm : ¬ v &&& 0x80 ≠ 0 := by
        rw [and_80_of_lt h]
        omega
      rw [if_neg hterm]
      have hand : v &&& 0x7F = v := by
        rw [and_7f]
        omega
      have hlow : value ||| v <<< shift = value + v * 2 ^ shift := by
        rw [Nat.shiftLeft_eq]
        exact lor_mul_two_pow v hvalue
      simp only [hand, hlow, List.nil_append]

/-- Decoding the encoding of `v` followed by any trailing bytes yields `v`
and leaves exactly the trailing bytes. -/
theorem decode_encode_append (v : ℕ) (rest : List ℕ) :
    decode (encode v ++ rest) = some (v, rest) := by
  have h := decodeAux_encode v ((encode v ++ rest).length + 1) 0 0 rest
    (by simp; omega) (by norm_num)
  rw [decode, h]
  norm_num

/-- Plain round-trip. -/
theorem decode_encode (v : ℕ) : decode (encode v) = some (v, []) := by
  have h := decode_encode_append v []
  rw [List.append_nil] at h
  exact h

theorem log2_div_128 {v : ℕ} : Nat.log 2 (v / 128) = Nat.log 2 v - 7 := by
  have h : v / 128 = v / 2 / 2 / 2 / 2 / 2 / 2 / 2 := by omega
  rw [h, Nat.log_div_base, Nat.log_div_base, Nat.log_div_base, Nat.log_div_base,
      Nat.log_div_base, Nat.log_div_base, Nat.log_div_base]
  omega

/-- Encoded length of a positive value: `⌈(⌊log₂ v⌋ + 1) / 7⌉` bytes. -/
theorem encode_length_pos {v : ℕ} (hv : 1 ≤ v) :
    (encode v).length = (Nat.log 2 v + 1 + 6) / 7 := by
  induction v using Nat.strong_induction_on with
  | _ v ih =>
    by_cases h : 128 ≤ v
    · have henc : encode v = (v % 128 + 128) :: encode (v / 128) := by
        rw [encode_eq_arith, if_pos h]
      have hrec := ih (v / 128) (by omega) (by omega)
      have hlog7 : 7 ≤ Nat.log 2 v := by
        have := (Nat.pow_le_iff_le_log (b := 2) (by norm_num)
          (x := 7) (y := v) (by omega)).mp (by norm_num; omega)
        exact this
      have hld : Nat.log 2 (v / 128) = Nat.log 2 v - 7 := log2_div_128
      rw [henc, List.length_cons, hrec, hld]
      omega
    · have henc : encode v = [v] := by
        rw [encode_eq_arith, if_neg h]
      have hlog : Nat.log 2 v < 7 :=
        Nat.log_lt_of_lt_pow (by omega) (by norm_num; omega)
      rw [henc, List.length_singleton]
      omega

/-- If every byte of the stream has the continuation bit set (a stream
truncated mid-value: the EOF reads also produce 0xFF, whose continuation bit
is set), the decode loop never exits, whatever iteration bound is allowed. -/
theorem decodeAux_none_of_truncated :
    ∀ (fuel : ℕ) (bs : List ℕ), (∀ b ∈ bs, b &&& 0x80 ≠ 0) →
      ∀ (value shift : ℕ), decodeAux fuel bs value shift = none := by
  intro fuel
  induction fuel with
  | zero => intro bs _ value shift; rfl
  | succ fuel ih =>
    intro bs hbs value shift
    cases bs with
    | nil =>
      simp only [decodeAux, getByte]
      rw [if_pos (by decide)]
      exact ih [] (by simp) _ _
    | cons b rest =>
      simp only [decodeAux, getByte]
      rw [if_pos (hbs b (by simp))]
      exact ih rest (fun x hx => hbs x (by simp [hx])) _ _

end varbyte


namespace Merger

theorem toBlocksAux_nil {α : Type} (fuel : ℕ) : toBlocksAux fuel ([] : List α) = [] := by
  cases fuel with
  | zero => rfl
  | succ f => rfl

/-- `toBlocksAux` is fuel-irrelevant once the fuel covers the list length. -/
theorem toBlocksAux_fuel {α : Type} :
    ∀ (fuel1 fuel2 : ℕ) (l : List α), l.length ≤ fuel1 → l.length ≤ fuel2 →
      toBlocksAux fuel1 l = toBlocksAux fuel2 l := by
  intro fuel1
  induction fuel1 with
  | zero =>
    intro fuel2 l h1 _
    have : l = [] := List.length_eq_zero.mp (by omega)
    subst this
    rw [toBlocksAux_nil, toBlocksAux_nil]
  | succ f1 ih =>
    intro fuel2 l h1 h2
    cases l with
    | nil => rw [toBlocksAux_nil, toBlocksAux_nil]
    | cons a l2 =>
      obtain ⟨f2, rfl⟩ : ∃ f, fuel2 = f + 1 := by
        cases fuel2 with
        | zero => simp at h2
        | succ f => exact ⟨f, rfl⟩
      show (a :: l2).take BLOCK_SIZE :: toBlocksAux f1 ((a :: l2).drop BLOCK_SIZE)
          = (a :: l2).take BLOCK_SIZE :: toBlocksAux f2 ((a :: l2).drop BLOCK_SIZE)
      have hd : ((a :: l2).drop BLOCK_SIZE).length ≤ f1 := by
        rw [List.length_drop]
        simp only [List.length_cons, BLOCK_SIZE] at h1 ⊢
        omega
      have hd2 : ((a :: l2).drop BLOCK_SIZE).length ≤ f2 := by
        rw [List.length_drop]
        simp only [List.length_cons, BLOCK_SIZE] at h2 ⊢
        omega
      rw [ih f2 _ hd hd2]

/-- One unfolding step of the block loop. -/
theorem toBlocks_cons {α : Type} (a : α) (l : List α) :
    toBlocks (a :: l) =
      (a :: l).take BLOCK_SIZE :: toBlocks ((a :: l).drop BLOCK_SIZE) := by
  show toBlocksAux ((a :: l).length) (a :: l) = _
  obtain ⟨n, hn⟩ : ∃ n, (a :: l).length = n + 1 := ⟨l.length, by simp⟩
  rw [hn]
  show (a :: l).take BLOCK_SIZE :: toBlocksAux n ((a :: l).drop BLOCK_SIZE) = _
  rw [toBlocksAux_fuel n ((a :: l).drop BLOCK_SIZE).length _
    (by rw [List.length_drop, hn]; simp only [BLOCK_SIZE]; omega) le_rfl]
  rfl

theorem toBlocks_nil {α : Type} : toBlocks ([] : List α) = [] := rfl

/-- Reassembling the blocks gives back the original list. -/
theorem toBlocks_flatten {α : Type} (l : List α) : (toBlocks l).flatten = l := by
  have H : ∀ (n : ℕ) (l : List α), l.length ≤ n → (toBlocks l).flatten = l := by
    intro n
    induction n with
    | zero =>
      intro l h
      have : l = [] := List.length_eq_zero.mp (by omega)
      subst this
      rfl
    | succ n ih =>
      intro l h
      cases l with
      | nil => rfl
      | cons a l2 =>
        rw [toBlocks_cons, List.flatten_cons]
        have hlen : ((a :: l2).drop BLOCK_SIZE).length ≤ n := by
          rw [List.length_drop]
          simp only [List.length_cons, BLOCK_SIZE] at h ⊢
          omega
        rw [ih _ hlen, List.take_append_drop]
  exact H l.length l le_rfl

theorem blockGapsAux_length : ∀ (prev : ℕ) (l : List ℕ),
    (blockGapsAux prev l).length = l.length := by
  intro prev l
  induction l generalizing prev with
  | nil => rfl
  | cons d rest ih => simp [blockGapsAux, ih]

/-- Gap coding round-trips inside one block as soon as the docIDs ascend from
the gap base. -/
theorem undeltasAux_blockGapsAux : ∀ (prev : ℕ) (l : List ℕ),
    List.Chain (· ≤ ·) prev l →
    Cursor.undeltasAux prev (blockGapsAux prev l) = l := by
  intro prev l
  induction l generalizing prev with
  | nil => intro _; rfl
  | cons d rest ih =>
    intro hchain
    rcases hchain with _ | ⟨hle, hrest⟩
    simp only [blockGapsAux, Cursor.undeltasAux]
    have hd : prev + (d - prev) = d := by omega
    rw [hd, ih d hrest]

theorem chain_le_of_pairwise : ∀ (p : ℕ) (l : List ℕ),
    List.Pairwise (· < ·) l → (∀ x ∈ l, p ≤ x) → List.Chain (· ≤ ·) p l := by
  intro p l
  induction l generalizing p with
  | nil => intro _ _; exact List.Chain.nil
  | cons d rest ih =>
    intro hp hall
    refine List.Chain.cons (hall d (by simp)) (ih d hp.tail ?_)
    intro x hx
    exact le_of_lt (List.rel_of_pairwise_cons hp hx)

end Merger

namespace Cursor

theorem decodeValues_encode : ∀ (vs : List ℕ) (rest : List ℕ),
    decodeValues vs.length ((vs.map varbyte.encode).flatten ++ rest) = some (vs, rest) := by
  intro vs
  induction vs with
  | nil => intro rest; rfl
  | cons v vs ih =>
    intro rest
    show decodeValues (vs.length + 1)
      ((varbyte.encode v ++ (vs.map varbyte.encode).flatten) ++ rest) = _
    rw [List.append_assoc]
    show (match varbyte.decode (varbyte.encode v
        ++ ((vs.map varbyte.encode).flatten ++ rest)) with
      | none => none
      | some (w, r) =>
        match decodeValues vs.length r with
        | none => none
        | some (ws, r2) => some (w :: ws, r2)) = _
    rw [varbyte.decode_encode_append]
    show (match decodeValues vs.length ((vs.map varbyte.encode).flatten ++ rest) with
      | none => none
      | some (ws, r2) => some (v :: ws, r2)) = _
    rw [ih rest]

/-- Block-level round-trip: loading every block written for a strictly
ascending docID list recovers the list. -/
theorem loadDocIDBlocks_writeDocIDs (docIDs : List ℕ)
    (h : List.Pairwise (· < ·) docIDs) :
    loadDocIDBlocks (Merger.toBlocks docIDs).length (Merger.writeDocIDs docIDs)
      = some docIDs := by
  have H : ∀ (n : ℕ) (l : List ℕ), l.length ≤ n → List.Pairwise (· < ·) l →
      loadDocIDBlocks (Merger.toBlocks l).length (Merger.writeDocIDs l) = some l := by
    intro n
    induction n with
    | zero =>
      intro l hlen _
      have : l = [] := List.length_eq_zero.mp (by omega)
      subst this
      rfl
    | succ n ih =>
      intro l hlen hp
      cases l with
      | nil => rfl
      | cons a l2 =>
        have hw : Merger.writeDocIDs (a :: l2)
            = Merger.writeDocIDsBlock ((a :: l2).take Merger.BLOCK_SIZE)
              ++ Merger.writeDocIDs ((a :: l2).drop Merger.BLOCK_SIZE) := by
          rw [Merger.writeDocIDs, Merger.toBlocks_cons, List.map_cons, List.flatten_cons]
          rfl
        rw [hw, Merger.toBlocks_cons, List.length_cons]
        show (match varbyte.decode ((varbyte.encode ((a :: l2).take Merger.BLOCK_SIZE).length
            ++ ((Merger.blockGapsAux 0 ((a :: l2).take Merger.BLOCK_SIZE)).map varbyte.encode).flatten)
            ++ Merger.writeDocIDs ((a :: l2).drop Merger.BLOCK_SIZE)) with
          | none => none
          | some (blockLen, r1) =>
            match decodeValues blockLen r1 with
            | none => none
            | some (gaps, r2) =>
              match loadDocIDBlocks (Merger.toBlocks ((a :: l2).drop Merger.BLOCK_SIZE)).length r2 with
              | none => none
              | some ds => some (undeltasAux 0 gaps ++ ds)) = some (a :: l2)
        rw [List.append_assoc, varbyte.decode_encode_append]
        show (match decodeValues ((a :: l2).take Merger.BLOCK_SIZE).length
            (((Merger.blockGapsAux 0 ((a :: l2).take Merger.BLOCK_SIZE)).map varbyte.encode).flatten
              ++ Merger.writeDocIDs ((a :: l2).drop Merger.BLOCK_SIZE)) with
          | none => none
          | some (gaps, r2) =>
            match loadDocIDBlocks (Merger.toBlocks ((a :: l2).drop Merger.BLOCK_SIZE)).length r2 with
            | none => none
            | some ds => some (undeltasAux 0 gaps ++ ds)) = some (a :: l2)
        rw [show ((a :: l2).take Merger.BLOCK_SIZE).length
            = (Merger.blockGapsAux 0 ((a :: l2).take Merger.BLOCK_SIZE)).length from
          (Merger.blockGapsAux_length 0 _).symm]
        rw [decodeValues_encode]
        show (match loadDocIDBlocks (Merger.toBlocks ((a :: l2).drop Merger.BLOCK_SIZE)).length
            (Merger.writeDocIDs ((a :: l2).drop Merger.BLOCK_SIZE)) with
          | none => none
          | some ds => some (undeltasAux 0
              (Merger.blockGapsAux 0 ((a :: l2).take Merger.BLOCK_SIZE)) ++ ds)) = some (a :: l2)
        have hpdp : List.Pairwise (· < ·) ((a :: l2).drop Merger.BLOCK_SIZE) :=
          hp.sublist (List.drop_sublist _ _)
        have hlendp : ((a :: l2).drop Merger.BLOCK_SIZE).length ≤ n := by
          rw [List.length_drop]
          simp only [List.length_cons, Merger.BLOCK_SIZE] at hlen ⊢
          omega
        rw [ih _ hlendp hpdp]
        have hptk : List.Pairwise (· < ·) ((a :: l2).take Merger.BLOCK_SIZE) :=
          hp.sublist (List.take_sublist _ _)
        have hchain : List.Chain (· ≤ ·) 0 ((a :: l2).take Merger.BLOCK_SIZE) :=
          Merger.chain_le_of_pairwise 0 _ hptk (fun x _ => Nat.zero_le x)
        rw [Merger.undeltasAux_blockGapsAux 0 _ hchain]
        show some ((a :: l2).take Merger.BLOCK_SIZE ++ (a :: l2).drop Merger.BLOCK_SIZE)
          = some (a :: l2)
        rw [List.take_append_drop]
  exact H docIDs.length docIDs le_rfl h

end Cursor

namespace PostingList

theorem toList_eq_nil_of_invalid {c : PostingList} (h : c.hasMore = false) :
    c.toList = [] := by
  simp [toList, h]

theorem toList_valid {c : PostingList} (h : c.hasMore = true) :
    c.toList = c.buffer.drop c.blockPos ++ c.restBlocks.flatten := by
  simp [toList, h]

/-- A well-formed valid cursor exposes the head of its remaining postings as
the current posting. -/
theorem toList_head {c : PostingList} (hwf : c.WF) (h : c.hasMore = true) :
    c.toList = (c.currentDocID, c.currentFreq)
      :: (c.buffer.drop (c.blockPos + 1) ++ c.restBlocks.flatten) := by
  obtain ⟨h1, _⟩ := hwf
  obtain ⟨hlt, hget⟩ := h1 h
  rw [toList_valid h, List.drop_eq_getElem_cons hlt]
  have hc : c.buffer[c.blockPos] = (c.currentDocID, c.currentFreq) := by
    rw [List.getElem?_eq_getElem hlt] at hget
    exact Option.some.inj hget
  rw [hc, List.cons_append]

theorem toList_ne_nil {c : PostingList} (hwf : c.WF) (h : c.hasMore = true) :
    c.toList ≠ [] := by
  rw [toList_head hwf h]
  simp

/-- Specification of one `next` step on a well-formed valid cursor: the view
drops its head, well-formedness is preserved, and success coincides with the
cursor staying valid, i.e. with a nonempty rest. -/
theorem next_spec {c : PostingList} (hwf : c.WF) (hm : c.hasMore = true) :
    (c.next).1.WF ∧
    (c.next).1.toList = c.toList.tail ∧
    (c.next).2 = (c.next).1.hasMore ∧
    ((c.next).1.hasMore = true ↔ c.toList.tail ≠ []) := by
  have htail : c.toList.tail = c.buffer.drop (c.blockPos + 1) ++ c.restBlocks.flatten := by
    rw [toList_head hwf hm, List.tail_cons]
  have hnext : c.next =
      (match c.buffer[c.blockPos + 1]? with
      | some df =>
        ({ c with blockPos := c.blockPos + 1,
                  currentDocID := df.1, currentFreq := df.2 }, true)
      | none =>
        match loadNextBlock { c with blockPos := c.blockPos + 1 } with
        | (c2, true) =>
          match c2.buffer[0]? with
          | some df => ({ c2 with currentDocID := df.1, currentFreq := df.2 }, true)
          | none => ({ c2 with hasMore := false }, false)
        | (c2, false) => ({ c2 with hasMore := false }, false)) := by
    rw [next, if_neg (by simp [hm])]
  rcases hb : c.buffer[c.blockPos + 1]? with _ | df
  · -- block exhausted: load the next block
    have hlen : c.buffer.length ≤ c.blockPos + 1 := by
      by_contra hcon
      push_neg at hcon
      rw [List.getElem?_eq_getElem hcon] at hb
      simp at hb
    have hdropnil : c.buffer.drop (c.blockPos + 1) = [] :=
      List.drop_eq_nil_of_le hlen
    rcases hrest : c.restBlocks with _ | ⟨b, rest2⟩
    · -- no more blocks: cursor invalidated
      rw [hnext, hb]
      have hload : loadNextBlock { c with blockPos := c.blockPos + 1 }
          = ({ c with blockPos := c.blockPos + 1, hasMore := false }, false) := by
        rw [loadNextBlock]
        simp only [hrest]
      rw [hload]
      refine ⟨⟨by simp, by simp [hrest]⟩, ?_, by simp, ?_⟩
      · rw [toList_eq_nil_of_invalid (by simp), htail, hdropnil, hrest]
        simp
      · rw [htail, hdropnil, hrest]
        simp
    · -- load block b
      have hbne : b ≠ [] := hwf.2 b (by rw [hrest]; simp)
      rcases hbb : b with _ | ⟨db, b2⟩
      · exact absurd hbb hbne
      rw [hnext, hb]
      have hload : loadNextBlock { c with blockPos := c.blockPos + 1 }
          = ({ c with blockPos := 0, buffer := b, restBlocks := rest2 }, true) := by
        rw [loadNextBlock]
        simp only [hrest]
      rw [hload, hbb]
      simp only [List.getElem?_cons_zero]
      constructor
      · refine ⟨fun _ => ⟨by simp, by simp⟩, ?_⟩
        intro x hx
        exact hwf.2 x (by rw [hrest]; simp [hx])
      refine ⟨?_, by simp [hm], ?_⟩
      · rw [toList_valid (by simp [hm]), htail, hdropnil, hrest, hbb]
        simp
      · rw [htail, hdropnil, hrest, hbb]
        simp [hm]
  · -- still inside the current block
    have hlt : c.blockPos + 1 < c.buffer.length := by
      rcases List.getElem?_eq_some_iff.mp hb with ⟨hh, _⟩
      exact hh
    rw [hnext, hb]
    constructor
    · refine ⟨fun _ => ⟨by simpa using hlt, ?_⟩, hwf.2⟩
      simpa using hb
    refine ⟨?_, by simp [hm], ?_⟩
    · rw [toList_valid (by simp [hm]), htail]
    · have hne : c.buffer.drop (c.blockPos + 1) ≠ [] := by
        rw [ne_eq, List.drop_eq_nil_iff]
        omega
      rw [htail]
      simp [hm, hne]

/-- `next_spec` phrased on an equation for the returned pair. -/
theorem next_spec2 {c c2 : PostingList} {ok : Bool} (hwf : c.WF)
    (hm : c.hasMore = true) (hn : c.next = (c2, ok)) :
    c2.WF ∧ c2.toList = c.toList.tail ∧ ok = c2.hasMore ∧
    (c2.hasMore = true ↔ c.toList.tail ≠ []) := by
  have h := next_spec hwf hm
  rw [hn] at h
  exact h

/-- Specification of the `nextGEQ` loop under sufficient fuel: the cursor
ends on the remainder of its postings with every docID `< target` dropped
from the front, the returned flag is exactly "some posting survived", and
well-formedness is preserved. -/
theorem nextGEQAux_spec :
    ∀ (fuel : ℕ) (c : PostingList) (target : ℕ), c.WF → c.toList.length < fuel →
      (nextGEQAux fuel c target).1.WF ∧
      (nextGEQAux fuel c target).1.toList
        = c.toList.dropWhile (fun p => decide (p.1 < target)) ∧
      ((nextGEQAux fuel c target).2 = !(nextGEQAux fuel c target).1.toList.isEmpty) ∧
      ((nextGEQAux fuel c target).2 = (nextGEQAux fuel c target).1.hasMore) := by
  intro fuel
  induction fuel with
  | zero =>
    intro c target _ hlen
    omega
  | succ fuel ih =>
    intro c target hwf hlen
    by_cases hcond : (c.hasMore && decide (c.currentDocID < target)) = true
    · obtain ⟨hm, hlt⟩ : c.hasMore = true ∧ c.currentDocID < target := by
        simpa using hcond
      have hdw : c.toList.dropWhile (fun p => decide (p.1 < target))
          = c.toList.tail.dropWhile (fun p => decide (p.1 < target)) := by
        rw [toList_head hwf hm]
        simp [List.dropWhile_cons, hlt]
      rcases hn : c.next with ⟨c2, ok⟩
      obtain ⟨hwf2, hview2, hok2, hiff2⟩ := next_spec2 hwf hm hn
      have hunfold : nextGEQAux (fuel+1) c target
          = (match c.next with
            | (c2, true) => nextGEQAux fuel c2 target
            | (c2, false) => (c2, false)) := by
        rw [nextGEQAux, if_pos hcond]
      rw [hunfold, hn]
      cases ok with
      | false =>
        have hm2 : c2.hasMore = false := hok2.symm
        have htl : c.toList.tail = [] := by
          by_contra hne
          have := hiff2.mpr hne
          rw [hm2] at this
          simp at this
        refine ⟨hwf2, ?_, ?_, ?_⟩
        · rw [hview2, hdw, htl]
          rfl
        · rw [hview2, htl]
          rfl
        · rw [hm2]
      | true =>
        have hm2 : c2.hasMore = true := hok2.symm
        have hlen2 : c2.toList.length < fuel := by
          have h1 : c.toList.length = c.toList.tail.length + 1 := by
            rw [toList_head hwf hm]
            rfl
          rw [hview2]
          omega
        have hihres := ih c2 target hwf2 hlen2
        rw [hdw, ← hview2]
        exact hihres
    · have hunfold : nextGEQAux (fuel+1) c target
          = (c, c.hasMore && decide (target ≤ c.currentDocID)) := by
        rw [nextGEQAux, if_neg hcond]
      rw [hunfold]
      rcases hm : c.hasMore with _ | _
      · have hnil : c.toList = [] := toList_eq_nil_of_invalid hm
        refine ⟨hwf, by rw [hnil]; rfl, ?_, ?_⟩
        · simp [hm, hnil]
        · simp [hm]
      · have hge : target ≤ c.currentDocID := by
          by_contra hcon
          push_neg at hcon
          rw [hm] at hcond
          simp [hcon] at hcond
        have hnlt : ¬ (c.currentDocID < target) := by omega
        refine ⟨hwf, ?_, ?_, ?_⟩
        · rw [toList_head hwf hm]
          simp [List.dropWhile_cons, hnlt]
        · have hne := toList_ne_nil hwf hm
          simp [hm, hge, List.isEmpty_eq_false.mpr hne]
        · simp [hm, hge]

/-- `nextGEQ` meets the loop specification (its internal fuel is always
sufficient). -/
theorem nextGEQ_spec (c : PostingList) (target : ℕ) (hwf : c.WF) :
    (c.nextGEQ target).1.WF ∧
    (c.nextGEQ target).1.toList
      = c.toList.dropWhile (fun p => decide (p.1 < target)) ∧
    ((c.nextGEQ target).2 = !(c.nextGEQ target).1.toList.isEmpty) ∧
    ((c.nextGEQ target).2 = (c.nextGEQ target).1.hasMore) :=
  nextGEQAux_spec (c.toList.length + 1) c target hwf (by omega)


end PostingList

namespace Querier

theorem next_invalid {c : PostingList} (h : c.hasMore = false) :
    c.next = (c, false) := by
  rw [PostingList.next, if_pos h]

theorem nextGEQ_invalid {c : PostingList} (t : ℕ) (h : c.hasMore = false) :
    c.nextGEQ t = (c, false) := by
  rw [PostingList.nextGEQ, PostingList.nextGEQAux]
  simp [h]

theorem good_next {l : PostingList} (h : GoodCursor l) (hm : l.hasMore = true) :
    GoodCursor (l.next).1 := by
  obtain ⟨hwf, hasc, hb⟩ := h
  obtain ⟨hwf2, hview2, _, _⟩ := PostingList.next_spec hwf hm
  refine ⟨hwf2, ?_, ?_⟩
  · have : List.Pairwise (fun p q : ℕ × ℕ => p.1 < q.1) (l.next).1.toList := by
      rw [hview2]
      exact hasc.sublist (List.tail_sublist _)
    exact this
  · intro p hp
    rw [hview2] at hp
    exact hb p ((List.tail_sublist _).subset hp)

theorem good_next_any {l : PostingList} (h : GoodCursor l) :
    GoodCursor (l.next).1 := by
  rcases hm : l.hasMore with _ | _
  · rw [next_invalid hm]
    exact h
  · exact good_next h hm

theorem good_nextGEQ {l : PostingList} (h : GoodCursor l) (t : ℕ) :
    GoodCursor (l.nextGEQ t).1 := by
  obtain ⟨hwf, hasc, hb⟩ := h
  obtain ⟨hwf2, hview2, _, _⟩ := PostingList.nextGEQ_spec l t hwf
  refine ⟨hwf2, ?_, ?_⟩
  · have : List.Pairwise (fun p q : ℕ × ℕ => p.1 < q.1) (l.nextGEQ t).1.toList := by
      rw [hview2]
      exact hasc.sublist (List.dropWhile_sublist _)
    exact this
  · intro p hp
    rw [hview2] at hp
    exact hb p ((List.dropWhile_sublist _).subset hp)

/-- Characterization of the `minDoc` fold of `evaluateOR`, for any starting
accumulator. -/
theorem foldlMinDoc_spec : ∀ (lists : List PostingList) (m : ℕ),
    (lists.foldl (fun m l =>
        if l.hasMore && decide (l.currentDocID < m) then l.currentDocID else m) m
      ≤ m) ∧
    (∀ l ∈ lists, l.hasMore = true →
      lists.foldl (fun m l =>
        if l.hasMore && decide (l.currentDocID < m) then l.currentDocID else m) m
      ≤ l.currentDocID) ∧
    (lists.foldl (fun m l =>
        if l.hasMore && decide (l.currentDocID < m) then l.currentDocID else m) m = m
      ∨ ∃ l ∈ lists, l.hasMore = true ∧ l.currentDocID
          = lists.foldl (fun m l =>
              if l.hasMore && decide (l.currentDocID < m) then l.currentDocID else m) m) := by
  intro lists
  induction lists with
  | nil => intro m; exact ⟨le_rfl, by simp, Or.inl rfl⟩
  | cons l rest ih =>
    intro m
    rw [List.foldl_cons]
    by_cases hc : (l.hasMore && decide (l.currentDocID < m)) = true
    · obtain ⟨hm, hlt⟩ : l.hasMore = true ∧ l.currentDocID < m := by simpa using hc
      rw [if_pos hc]
      obtain ⟨ih1, ih2, ih3⟩ := ih l.currentDocID
      refine ⟨by omega, ?_, ?_⟩
      · intro l2 hl2 hm2
        rcases List.mem_cons.mp hl2 with rfl | hl2b
        · omega
        · exact ih2 l2 hl2b hm2
      · rcases ih3 with h3 | ⟨l2, hl2, hm2, he⟩
        · exact Or.inr ⟨l, by simp, hm, h3.symm⟩
        · exact Or.inr ⟨l2, by simp [hl2], hm2, he⟩
    · rw [if_neg hc]
      obtain ⟨ih1, ih2, ih3⟩ := ih m
      refine ⟨ih1, ?_, ?_⟩
      · intro l2 hl2 hm2
        rcases List.mem_cons.mp hl2 with rfl | hl2b
        · have : ¬ (l2.currentDocID < m) := by
            intro hcon
            exact hc (by simp [hm2, hcon])
          omega
        · exact ih2 l2 hl2b hm2
      · rcases ih3 with h3 | ⟨l2, hl2, hm2, he⟩
        · exact Or.inl h3
        · exact Or.inr ⟨l2, by simp [hl2], hm2, he⟩

theorem minDocOf_le {lists : List PostingList} {l : PostingList}
    (hl : l ∈ lists) (hm : l.hasMore = true) :
    minDocOf lists ≤ l.currentDocID :=
  (foldlMinDoc_spec lists UINT32_MAX).2.1 l hl hm

theorem minDocOf_attained {lists : List PostingList} :
    minDocOf lists = UINT32_MAX ∨
    ∃ l ∈ lists, l.hasMore = true ∧ l.currentDocID = minDocOf lists :=
  (foldlMinDoc_spec lists UINT32_MAX).2.2

/-- Characterization of the `maxDoc` fold of `evaluateAND`. -/
theorem foldlMaxDoc_spec : ∀ (lists : List PostingList) (m : ℕ),
    (m ≤ lists.foldl (fun m l =>
        if decide (m < l.currentDocID) then l.currentDocID else m) m) ∧
    (∀ l ∈ lists, l.currentDocID
      ≤ lists.foldl (fun m l =>
          if decide (m < l.currentDocID) then l.currentDocID else m) m) ∧
    (lists.foldl (fun m l =>
        if decide (m < l.currentDocID) then l.currentDocID else m) m = m
      ∨ ∃ l ∈ lists, l.currentDocID
          = lists.foldl (fun m l =>
              if decide (m < l.currentDocID) then l.currentDocID else m) m) := by
  intro lists
  induction lists with
  | nil => intro m; exact ⟨le_rfl, by simp, Or.inl rfl⟩
  | cons l rest ih =>
    intro m
    rw [List.foldl_cons]
    by_cases hc : (m < l.currentDocID)
    · rw [if_pos (by simpa using hc)]
      obtain ⟨ih1, ih2, ih3⟩ := ih l.currentDocID
      refine ⟨by omega, ?_, ?_⟩
      · intro l2 hl2
        rcases List.mem_cons.mp hl2 with rfl | hl2b
        · omega
        · exact ih2 l2 hl2b
      · rcases ih3 with h3 | ⟨l2, hl2, he⟩
        · exact Or.inr ⟨l, by simp, h3.symm⟩
        · exact Or.inr ⟨l2, by simp [hl2], he⟩
    · rw [if_neg (by simpa using hc)]
      obtain ⟨ih1, ih2, ih3⟩ := ih m
      refine ⟨ih1, ?_, ?_⟩
      · intro l2 hl2
        rcases List.mem_cons.mp hl2 with rfl | hl2b
        · omega
        · exact ih2 l2 hl2b
      · rcases ih3 with h3 | ⟨l2, hl2, he⟩
        · exact Or.inl h3
        · exact Or.inr ⟨l2, by simp [hl2], he⟩

theorem maxDocOf_ge {lists : List PostingList} {l : PostingList} (hl : l ∈ lists) :
    l.currentDocID ≤ maxDocOf lists :=
  (foldlMaxDoc_spec lists 0).2.1 l hl

theorem maxDocOf_attained {lists : List PostingList} (hne : lists ≠ []) :
    ∃ l ∈ lists, l.currentDocID = maxDocOf lists := by
  rcases (foldlMaxDoc_spec lists 0).2.2 with h | h
  · rcases lists with _ | ⟨l, rest⟩
    · exact absurd rfl hne
    · refine ⟨l, by simp, ?_⟩
      have h1 := @maxDocOf_ge (l :: rest) l (by simp)
      rw [maxDocOf] at *
      omega
  · exact h

theorem freqAt_cons_self (d f : ℕ) (v : List (ℕ × ℕ)) :
    freqAt ((d, f) :: v) d = f := by
  rw [freqAt, List.find?_cons_of_pos _ (by simp)]
  rfl

/-- With strictly ascending docIDs the frequency of a docID is unique. -/
theorem freqAt_of_mem : ∀ {v : List (ℕ × ℕ)} {d f : ℕ},
    List.Pairwise (fun p q : ℕ × ℕ => p.1 < q.1) v → (d, f) ∈ v →
    freqAt v d = f := by
  intro v
  induction v with
  | nil => intro d f _ hm; simp at hm
  | cons q rest ih =>
    intro d f hp hm
    rcases List.mem_cons.mp hm with rfl | hm2
    · exact freqAt_cons_self d f rest
    · have hlt : q.1 < d := List.rel_of_pairwise_cons hp hm2
      have hne : ¬ ((fun p : ℕ × ℕ => p.1 == d) q = true) := by
        simp only [beq_iff_eq]
        omega
      have hfind : List.find? (fun p : ℕ × ℕ => p.1 == d) (q :: rest)
          = List.find? (fun p : ℕ × ℕ => p.1 == d) rest :=
        List.find?_cons_of_neg rest hne
      rw [freqAt, hfind]
      exact ih hp.tail hm2

/-- In an ascending view whose head is not below `d`, membership of `d`
forces it to be the head. -/
theorem mem_fst_head : ∀ {v : List (ℕ × ℕ)} {d : ℕ},
    List.Pairwise (fun p q : ℕ × ℕ => p.1 < q.1) v →
    d ∈ v.map Prod.fst → (∀ q ∈ v, d ≤ q.1) →
    ∃ tl, v = (d, freqAt v d) :: tl := by
  intro v d hp hm hle
  rcases v with _ | ⟨⟨d0, f0⟩, tl⟩
  · simp at hm
  · have h0 : d0 = d := by
      rcases List.mem_map.mp hm with ⟨q, hq, hqd⟩
      rcases List.mem_cons.mp hq with hq1 | hq2
      · rw [hq1] at hqd
        exact hqd
      · have h1 : (d0, f0).1 < q.1 := List.rel_of_pairwise_cons hp hq2
        have h1b : d0 < q.1 := h1
        have h2 : d ≤ (d0, f0).1 := hle (d0, f0) (by simp)
        have h2b : d ≤ d0 := h2
        omega
    subst h0
    rw [freqAt_cons_self]
    exact ⟨tl, rfl⟩

/-- In an ascending view, a valid cursor whose current docID differs from
`minDoc` while being at least `minDoc` cannot contain `minDoc` at all. -/
theorem not_mem_of_head_gt {l : PostingList} (hg : GoodCursor l)
    (hm : l.hasMore = true) {minDoc : ℕ} (hge : minDoc ≤ l.currentDocID)
    (hne : l.currentDocID ≠ minDoc) :
    minDoc ∉ l.toList.map Prod.fst := by
  obtain ⟨hwf, hasc, _⟩ := hg
  intro hmem
  rcases List.mem_map.mp hmem with ⟨q, hq, hqd⟩
  rw [PostingList.toList_head hwf hm] at hq
  have hasc2 : List.Pairwise (fun p q : ℕ × ℕ => p.1 < q.1)
      ((l.currentDocID, l.currentFreq)
        :: (l.buffer.drop (l.blockPos + 1) ++ l.restBlocks.flatten)) := by
    have := hasc
    rw [PostingList.Ascending, PostingList.toList_head hwf hm] at this
    exact this
  rcases List.mem_cons.mp hq with hq1 | hq2
  · rw [hq1] at hqd
    exact hne hqd
  · have h1 : (l.currentDocID, l.currentFreq).1 < q.1 :=
      List.rel_of_pairwise_cons hasc2 hq2
    have h1b : l.currentDocID < q.1 := h1
    omega

/-- Joint specification of the OR scoring/advancing pass: its score is the
reference OR sum for `minDoc`, and each cursor's view either drops its
`minDoc` head or stays put. -/
theorem orStep_spec (score : ℕ → ℕ → ℕ → ℚ) (minDoc : ℕ) :
    ∀ (i : ℕ) (lists : List PostingList),
    (∀ l ∈ lists, GoodCursor l) →
    (∀ l ∈ lists, l.hasMore = true → minDoc ≤ l.currentDocID) →
    (orStep score minDoc i lists).2
      = sumScoreOr score minDoc i (lists.map PostingList.toList) ∧
    List.Forall₂ (fun l2 l => GoodCursor l2 ∧
        l2.toList = (if l.hasMore && decide (l.currentDocID = minDoc)
                     then l.toList.tail else l.toList))
      (orStep score minDoc i lists).1 lists := by
  intro i lists
  induction lists generalizing i with
  | nil => intro _ _; exact ⟨rfl, List.Forall₂.nil⟩
  | cons l rest ih =>
    intro hg hge
    have hgl : GoodCursor l := hg l (by simp)
    obtain ⟨ihs, ihf⟩ := ih (i+1) (fun x hx => hg x (by simp [hx]))
      (fun x hx => hge x (by simp [hx]))
    by_cases hc : (l.hasMore && decide (l.currentDocID = minDoc)) = true
    · obtain ⟨hm, hd⟩ : l.hasMore = true ∧ l.currentDocID = minDoc := by
        simpa using hc
      have hstep : orStep score minDoc i (l :: rest)
          = ((l.next).1 :: (orStep score minDoc (i+1) rest).1,
             score i l.currentFreq minDoc + (orStep score minDoc (i+1) rest).2) := by
        simp only [orStep, hc, if_true]
      have hview : l.toList = (minDoc, l.currentFreq)
          :: (l.buffer.drop (l.blockPos + 1) ++ l.restBlocks.flatten) := by
        rw [PostingList.toList_head hgl.1 hm, hd]
      constructor
      · rw [hstep]
        simp only [List.map_cons, sumScoreOr]
        rw [ihs, hview]
        rw [if_pos (by simp), freqAt_cons_self]
      · rw [hstep]
        refine List.Forall₂.cons ⟨good_next hgl hm, ?_⟩ ihf
        rw [if_pos hc]
        exact (PostingList.next_spec hgl.1 hm).2.1
    · have hstep : orStep score minDoc i (l :: rest)
          = (l :: (orStep score minDoc (i+1) rest).1,
             (orStep score minDoc (i+1) rest).2) := by
        simp only [orStep]
        rw [if_neg hc]
      have hnotmem : minDoc ∉ l.toList.map Prod.fst := by
        rcases hm : l.hasMore with _ | _
        · rw [PostingList.toList_eq_nil_of_invalid hm]
          simp
        · have hne : l.currentDocID ≠ minDoc := by
            intro he
            exact hc (by simp [hm, he])
          exact not_mem_of_head_gt hgl hm (hge l (by simp) hm) hne
      constructor
      · rw [hstep]
        simp only [List.map_cons, sumScoreOr]
        rw [ihs, if_neg hnotmem]
        ring
      · rw [hstep]
        exact List.Forall₂.cons ⟨hgl, by rw [if_neg hc]⟩ ihf

/-- The advanced cursor set never gains postings, and strictly loses one as
soon as some cursor matched `minDoc`. -/
theorem orStep_remaining {minDoc : ℕ} :
    ∀ {l2s ls : List PostingList},
    List.Forall₂ (fun l2 l => GoodCursor l2 ∧
        l2.toList = (if l.hasMore && decide (l.currentDocID = minDoc)
                     then l.toList.tail else l.toList)) l2s ls →
    (∀ l ∈ ls, GoodCursor l) →
    totalRemaining l2s ≤ totalRemaining ls ∧
    (∀ l0 ∈ ls, (l0.hasMore && decide (l0.currentDocID = minDoc)) = true →
      totalRemaining l2s < totalRemaining ls) := by
  intro l2s ls hf
  induction hf with
  | nil => intro _; exact ⟨le_rfl, by simp⟩
  | @cons l2 l l2tl ltl hhead htail ih =>
    intro hg
    obtain ⟨ihle, ihlt⟩ := ih (fun x hx => hg x (by simp [hx]))
    obtain ⟨hg2, hview⟩ := hhead
    have hlen : l2.toList.length ≤ l.toList.length := by
      rw [hview]
      by_cases hc : (l.hasMore && decide (l.currentDocID = minDoc)) = true
      · rw [if_pos hc]
        rcases l.toList with _ | ⟨q, tl⟩
        · simp
        · simp
      · rw [if_neg hc]
    have htot : totalRemaining (l2 :: l2tl)
        = l2.toList.length + totalRemaining l2tl := by
      simp [totalRemaining]
    have htot2 : totalRemaining (l :: ltl)
        = l.toList.length + totalRemaining ltl := by
      simp [totalRemaining]
    refine ⟨by omega, ?_⟩
    intro l0 hl0 hc0
    rcases List.mem_cons.mp hl0 with rfl | hl0b
    · obtain ⟨hm0, _⟩ : l0.hasMore = true ∧ l0.currentDocID = minDoc := by
        simpa using hc0
      have hne : l0.toList ≠ [] := PostingList.toList_ne_nil (hg l0 (by simp)).1 hm0
      have hlt : l2.toList.length < l0.toList.length := by
        rw [hview, if_pos hc0]
        rcases hnil : l0.toList with _ | ⟨q, tl⟩
        · exact absurd hnil hne
        · simp
      omega
    · have := ihlt l0 hl0b hc0
      omega

/-- For a docID other than `minDoc`, one OR step changes neither membership
nor the reference OR score. -/
theorem orStep_preserve {score : ℕ → ℕ → ℕ → ℚ} {minDoc d : ℕ} (hd : d ≠ minDoc) :
    ∀ {l2s ls : List PostingList},
    List.Forall₂ (fun l2 l => GoodCursor l2 ∧
        l2.toList = (if l.hasMore && decide (l.currentDocID = minDoc)
                     then l.toList.tail else l.toList)) l2s ls →
    (∀ l ∈ ls, GoodCursor l) →
    (∀ j, sumScoreOr score d j (l2s.map PostingList.toList)
        = sumScoreOr score d j (ls.map PostingList.toList)) ∧
    ((∃ l2 ∈ l2s, d ∈ l2.toList.map Prod.fst)
      ↔ (∃ l ∈ ls, d ∈ l.toList.map Prod.fst)) := by
  intro l2s ls hf
  induction hf with
  | nil => intro _; exact ⟨fun j => rfl, by simp⟩
  | @cons l2 l l2tl ltl hhead htail ih =>
    intro hg
    obtain ⟨ihsum, ihmem⟩ := ih (fun x hx => hg x (by simp [hx]))
    obtain ⟨hg2, hview⟩ := hhead
    have hgl : GoodCursor l := hg l (by simp)
    have hkey : (d ∈ l2.toList.map Prod.fst ↔ d ∈ l.toList.map Prod.fst) ∧
        freqAt l2.toList d = freqAt l.toList d := by
      by_cases hc : (l.hasMore && decide (l.currentDocID = minDoc)) = true
      · obtain ⟨hm, hdoc⟩ : l.hasMore = true ∧ l.currentDocID = minDoc := by
          simpa using hc
        have hviewl : l.toList = (minDoc, l.currentFreq)
            :: (l.buffer.drop (l.blockPos + 1) ++ l.restBlocks.flatten) := by
          rw [PostingList.toList_head hgl.1 hm, hdoc]
        have hview2 : l2.toList
            = l.buffer.drop (l.blockPos + 1) ++ l.restBlocks.flatten := by
          rw [hview, if_pos hc, hviewl, List.tail_cons]
        constructor
        · rw [hview2, hviewl]
          simp only [List.map_cons, List.mem_cons]
          constructor
          · intro h
            exact Or.inr h
          · rintro (h | h)
            · exact absurd h hd
            · exact h
        · rw [hview2, hviewl, freqAt]
          have hne2 : ¬ ((fun p : ℕ × ℕ => p.1 == d) (minDoc, l.currentFreq) = true) := by
            simp only [beq_iff_eq]
            intro he
            have : minDoc = d := he
            omega
          have hfind : List.find? (fun p : ℕ × ℕ => p.1 == d)
              ((minDoc, l.currentFreq)
                :: (l.buffer.drop (l.blockPos + 1) ++ l.restBlocks.flatten))
              = List.find? (fun p : ℕ × ℕ => p.1 == d)
                  (l.buffer.drop (l.blockPos + 1) ++ l.restBlocks.flatten) :=
            List.find?_cons_of_neg _ hne2
          rw [freqAt, hfind]
      · rw [hview, if_neg hc]
        exact ⟨Iff.rfl, rfl⟩
    constructor
    · intro j
      simp only [List.map_cons, sumScoreOr]
      rw [ihsum (j+1)]
      by_cases hmem : d ∈ l.toList.map Prod.fst
      · rw [if_pos hmem, if_pos (hkey.1.mpr hmem), hkey.2]
      · rw [if_neg hmem, if_neg (fun hcon => hmem (hkey.1.mp hcon))]
    · constructor
      · rintro ⟨x, hx, hmx⟩
        rcases List.mem_cons.mp hx with rfl | hxb
        · exact ⟨l, by simp, hkey.1.mp hmx⟩
        · rcases ihmem.mp ⟨x, hxb, hmx⟩ with ⟨y, hy, hmy⟩
          exact ⟨y, by simp [hy], hmy⟩
      · rintro ⟨x, hx, hmx⟩
        rcases List.mem_cons.mp hx with rfl | hxb
        · exact ⟨l2, by simp, hkey.1.mpr hmx⟩
        · rcases ihmem.mpr ⟨x, hxb, hmx⟩ with ⟨y, hy, hmy⟩
          exact ⟨y, by simp [hy], hmy⟩

theorem forall₂_mem_left {α β : Type} {R : α → β → Prop} :
    ∀ {xs : List α} {ys : List β}, List.Forall₂ R xs ys →
      ∀ x ∈ xs, ∃ y ∈ ys, R x y := by
  intro xs ys h
  induction h with
  | nil => simp
  | @cons a b atl btl h1 h2 ih =>
    intro x hx
    rcases List.mem_cons.mp hx with rfl | hx2
    · exact ⟨b, by simp, h1⟩
    · rcases ih x hx2 with ⟨y, hy, hr⟩
      exact ⟨y, by simp [hy], hr⟩

/-- A valid well-formed cursor's current docID is its view's head docID and
thus below the sentinel. -/
theorem current_lt_max {l : PostingList} (hg : GoodCursor l)
    (hm : l.hasMore = true) : l.currentDocID < UINT32_MAX := by
  have hb := hg.2.2
  apply hb (l.currentDocID, l.currentFreq)
  rw [PostingList.toList_head hg.1 hm]
  simp

theorem doc_mem_view {l : PostingList} (hg : GoodCursor l)
    (hm : l.hasMore = true) : l.currentDocID ∈ l.toList.map Prod.fst := by
  rw [PostingList.toList_head hg.1 hm]
  simp

/-- After one OR step every remaining docID in every cursor lies strictly
beyond `minDoc`. -/
theorem views_gt_of_orStepSpec {minDoc : ℕ} {l2s ls : List PostingList}
    (hf : List.Forall₂ (fun l2 l => GoodCursor l2 ∧
        l2.toList = (if l.hasMore && decide (l.currentDocID = minDoc)
                     then l.toList.tail else l.toList)) l2s ls)
    (hg : ∀ l ∈ ls, GoodCursor l)
    (hge : ∀ l ∈ ls, l.hasMore = true → minDoc ≤ l.currentDocID) :
    ∀ l2 ∈ l2s, ∀ q ∈ l2.toList, minDoc < q.1 := by
  intro l2 hl2 q hq
  rcases forall₂_mem_left hf l2 hl2 with ⟨l, hl, _, hview⟩
  by_cases hc : (l.hasMore && decide (l.currentDocID = minDoc)) = true
  · obtain ⟨hm, hd⟩ : l.hasMore = true ∧ l.currentDocID = minDoc := by
      simpa using hc
    have hheads := PostingList.toList_head (hg l hl).1 hm
    have hview2 : l2.toList
        = l.buffer.drop (l.blockPos + 1) ++ l.restBlocks.flatten := by
      rw [hview, if_pos hc, hheads, List.tail_cons]
    have hasc : List.Pairwise (fun p q : ℕ × ℕ => p.1 < q.1) l.toList :=
      (hg l hl).2.1
    rw [hheads] at hasc
    rw [hview2] at hq
    have h1 : (l.currentDocID, l.currentFreq).1 < q.1 :=
      List.rel_of_pairwise_cons hasc hq
    have h2 : l.currentDocID < q.1 := h1
    omega
  · have hview2 : l2.toList = l.toList := by
      rw [hview, if_neg hc]
    rw [hview2] at hq
    rcases hm : l.hasMore with _ | _
    · rw [PostingList.toList_eq_nil_of_invalid hm] at hq
      simp at hq
    · have hne : l.currentDocID ≠ minDoc := fun he => hc (by simp [hm, he])
      have hgeq := hge l hl hm
      have hheads := PostingList.toList_head (hg l hl).1 hm
      have hasc : List.Pairwise (fun p q : ℕ × ℕ => p.1 < q.1) l.toList :=
        (hg l hl).2.1
      rw [hheads] at hasc
      rw [hheads] at hq
      rcases List.mem_cons.mp hq with rfl | hq2
      · show minDoc < l.currentDocID
        omega
      · have h1 : (l.currentDocID, l.currentFreq).1 < q.1 :=
          List.rel_of_pairwise_cons hasc hq2
        have h2 : l.currentDocID < q.1 := h1
        omega

/-- Master lemma for the DAAT-OR loop: with enough fuel the loop
terminates; its trace contains, for every docID in some cursor's remaining
postings, the entry scored by the reference OR sum; every traced docID comes
from some cursor; and the traced docIDs strictly increase. -/
theorem orTrace_master (score : ℕ → ℕ → ℕ → ℚ) :
    ∀ (fuel : ℕ) (lists : List PostingList),
    (∀ l ∈ lists, GoodCursor l) → totalRemaining lists < fuel →
    ∃ tr, orTrace score fuel lists = some tr ∧
      (∀ d : ℕ, (∃ l ∈ lists, d ∈ l.toList.map Prod.fst) →
        (d, sumScoreOr score d 0 (lists.map PostingList.toList)) ∈ tr) ∧
      (∀ p ∈ tr, ∃ l ∈ lists, p.1 ∈ l.toList.map Prod.fst) ∧
      List.Pairwise (fun a b : ℕ × ℚ => a.1 < b.1) tr := by
  intro fuel
  induction fuel with
  | zero => intro lists _ h; omega
  | succ fuel ih =>
    intro lists hg hfuel
    by_cases hmin : minDocOf lists = UINT32_MAX
    · refine ⟨[], ?_, ?_, by simp, List.Pairwise.nil⟩
      · simp only [orTrace]
        rw [if_pos hmin]
      · rintro d ⟨l, hl, hm⟩
        have hval : l.hasMore = true := by
          rcases hv : l.hasMore with _ | _
          · rw [PostingList.toList_eq_nil_of_invalid hv] at hm
            simp at hm
          · rfl
        have h1 := minDocOf_le hl hval
        have h2 := current_lt_max (hg l hl) hval
        rw [hmin] at h1
        omega
    · have hge : ∀ l ∈ lists, l.hasMore = true → minDocOf lists ≤ l.currentDocID :=
        fun l hl hm => minDocOf_le hl hm
      obtain ⟨hsum, hforall⟩ := orStep_spec score (minDocOf lists) 0 lists hg hge
      have hg2 : ∀ l2 ∈ (orStep score (minDocOf lists) 0 lists).1, GoodCursor l2 := by
        intro l2 hl2
        rcases forall₂_mem_left hforall l2 hl2 with ⟨l, _, hr, _⟩
        exact hr
      rcases @minDocOf_attained lists with h | ⟨l0, hl0, hm0, hd0⟩
      · exact absurd h hmin
      have hrem := orStep_remaining hforall hg
      have hdec : totalRemaining (orStep score (minDocOf lists) 0 lists).1
          < totalRemaining lists :=
        hrem.2 l0 hl0 (by simp [hm0, hd0])
      obtain ⟨tr2, htr2, hcomp2, hsound2, hpw2⟩ :=
        ih (orStep score (minDocOf lists) 0 lists).1 hg2 (by omega)
      have hsubs : List.Forall₂ (fun a b : PostingList => a.toList ⊆ b.toList)
          (orStep score (minDocOf lists) 0 lists).1 lists := by
        refine hforall.imp (fun a b h => ?_)
        rw [h.2]
        by_cases hc : (b.hasMore && decide (b.currentDocID = minDocOf lists)) = true
        · rw [if_pos hc]
          exact (List.tail_sublist _).subset
        · rw [if_neg hc]
          exact fun q hq => hq
      refine ⟨(minDocOf lists, (orStep score (minDocOf lists) 0 lists).2) :: tr2,
        ?_, ?_, ?_, ?_⟩
      · simp only [orTrace]
        rw [if_neg hmin, htr2]
      · rintro d ⟨l, hl, hm⟩
        by_cases hdm : d = minDocOf lists
        · subst hdm
          rw [← hsum]
          simp
        · obtain ⟨hpres, hmemiff⟩ := orStep_preserve hdm hforall hg
          have hmem2 : ∃ l2 ∈ (orStep score (minDocOf lists) 0 lists).1,
              d ∈ l2.toList.map Prod.fst := hmemiff.mpr ⟨l, hl, hm⟩
          have := hcomp2 d hmem2
          rw [hpres 0] at this
          exact List.mem_cons_of_mem _ this
      · intro p hp
        rcases List.mem_cons.mp hp with rfl | hp2
        · refine ⟨l0, hl0, ?_⟩
          have := doc_mem_view (hg l0 hl0) hm0
          rw [hd0] at this
          exact this
        · rcases hsound2 p hp2 with ⟨l2, hl2, hm2⟩
          rcases forall₂_mem_left hsubs l2 hl2 with ⟨l, hl, hsub⟩
          refine ⟨l, hl, ?_⟩
          rcases List.mem_map.mp hm2 with ⟨q, hq, hq1⟩
          exact List.mem_map.mpr ⟨q, hsub hq, hq1⟩
      · refine List.Pairwise.cons ?_ hpw2
        intro b hb
        rcases hsound2 b hb with ⟨l2, hl2, hm2⟩
        rcases List.mem_map.mp hm2 with ⟨q, hq, hq1⟩
        have := views_gt_of_orStepSpec hforall hg hge l2 hl2 q hq
        show minDocOf lists < b.1
        omega

theorem forall₂_comp {α β γ : Type} {R : α → β → Prop} {S : β → γ → Prop}
    {T : α → γ → Prop} (h : ∀ a b c, R a b → S b c → T a c) :
    ∀ {xs : List α} {ys : List β} {zs : List γ},
      List.Forall₂ R xs ys → List.Forall₂ S ys zs → List.Forall₂ T xs zs := by
  intro xs ys zs h1
  induction h1 generalizing zs with
  | nil =>
    intro h2
    cases h2
    exact List.Forall₂.nil
  | @cons a b atl btl hab htl ih =>
    intro h2
    cases h2 with
    | cons hbc htl2 => exact List.Forall₂.cons (h _ _ _ hab hbc) (ih htl2)

theorem forall₂_map_self {α β : Type} {R : β → α → Prop} (f : α → β) :
    ∀ (xs : List α), (∀ x ∈ xs, R (f x) x) → List.Forall₂ R (xs.map f) xs := by
  intro xs
  induction xs with
  | nil => intro _; exact List.Forall₂.nil
  | cons x tl ih =>
    intro h
    exact List.Forall₂.cons (h x (by simp))
      (ih (fun y hy => h y (by simp [hy])))

theorem totalRemaining_le_of_forall₂ :
    ∀ {l2s ls : List PostingList},
    List.Forall₂ (fun l2 l => l2.toList.length ≤ l.toList.length) l2s ls →
    totalRemaining l2s ≤ totalRemaining ls := by
  intro l2s ls h
  induction h with
  | nil => exact le_rfl
  | @cons a b atl btl hab htl ih =>
    have h1 : totalRemaining (a :: atl) = a.toList.length + totalRemaining atl := by
      simp [totalRemaining]
    have h2 : totalRemaining (b :: btl) = b.toList.length + totalRemaining btl := by
      simp [totalRemaining]
    omega

/-- Advancing every (valid) cursor with `next()` drops one posting per
cursor. -/
theorem totalRemaining_nextAll_lt :
    ∀ (lists : List PostingList), lists ≠ [] →
    (∀ l ∈ lists, GoodCursor l ∧ l.hasMore = true) →
    totalRemaining (nextAll lists) < totalRemaining lists := by
  have key : ∀ (lists : List PostingList),
      (∀ l ∈ lists, GoodCursor l ∧ l.hasMore = true) →
      totalRemaining (nextAll lists) + lists.length ≤ totalRemaining lists := by
    intro lists
    induction lists with
    | nil => intro _; simp [totalRemaining, nextAll]
    | cons l tl ih =>
      intro h
      obtain ⟨hg, hm⟩ := h l (by simp)
      have hview := (PostingList.next_spec hg.1 hm).2.1
      have hne := PostingList.toList_ne_nil hg.1 hm
      have hlen : (l.next).1.toList.length + 1 = l.toList.length := by
        rw [hview]
        rcases he : l.toList with _ | ⟨q, qtl⟩
        · exact absurd he hne
        · simp
      have hih := ih (fun x hx => h x (by simp [hx]))
      have he1 : totalRemaining (nextAll (l :: tl))
          = (l.next).1.toList.length + totalRemaining (nextAll tl) := by
        simp [totalRemaining, nextAll]
      have he2 : totalRemaining (l :: tl) = l.toList.length + totalRemaining tl := by
        simp [totalRemaining]
      simp only [List.length_cons]
      omega
  intro lists hne h
  have := key lists h
  have hlen : 0 < lists.length := List.length_pos.mpr hne
  omega

/-- Advancing every cursor to `nextGEQ t` never adds postings, and removes
at least one if some valid cursor still sits below `t`. -/
theorem totalRemaining_nextGEQAll_lt :
    ∀ (lists : List PostingList) (t : ℕ),
    (∀ l ∈ lists, GoodCursor l) →
    (∃ l0 ∈ lists, l0.hasMore = true ∧ l0.currentDocID < t) →
    totalRemaining (nextGEQAll lists t) < totalRemaining lists := by
  intro lists t
  induction lists with
  | nil =>
    rintro _ ⟨l0, hl0, _⟩
    simp at hl0
  | cons l tl ih =>
    rintro hg ⟨l0, hl0, hm0, hlt0⟩
    have hgl := hg l (by simp)
    have hlensub : ∀ x : PostingList, GoodCursor x →
        (x.nextGEQ t).1.toList.length ≤ x.toList.length := by
      intro x hx
      rw [(PostingList.nextGEQ_spec x t hx.1).2.1]
      exact List.Sublist.length_le (List.dropWhile_sublist _)
    have htlle : totalRemaining (nextGEQAll tl t) ≤ totalRemaining tl := by
      apply totalRemaining_le_of_forall₂
      apply forall₂_map_self
      intro x hx
      exact hlensub x (hg x (by simp [hx]))
    have he1 : totalRemaining (nextGEQAll (l :: tl) t)
        = (l.nextGEQ t).1.toList.length + totalRemaining (nextGEQAll tl t) := by
      simp [totalRemaining, nextGEQAll]
    have he2 : totalRemaining (l :: tl) = l.toList.length + totalRemaining tl := by
      simp [totalRemaining]
    rcases List.mem_cons.mp hl0 with rfl | hl0b
    · have hview := (PostingList.nextGEQ_spec l0 t hgl.1).2.1
      have hheads := PostingList.toList_head hgl.1 hm0
      have hlt : (l0.nextGEQ t).1.toList.length < l0.toList.length := by
        rw [hview, hheads, List.dropWhile_cons]
        simp only [hlt0, decide_eq_true_eq, if_pos]
        have := List.Sublist.length_le (List.dropWhile_sublist
          (l := l0.buffer.drop (l0.blockPos + 1) ++ l0.restBlocks.flatten)
          (fun p : ℕ × ℕ => decide (p.1 < t)))
        simp only [List.length_cons]
        omega
      omega
    · have hlt := ih (fun x hx => hg x (by simp [hx])) ⟨l0, hl0b, hm0, hlt0⟩
      have hll := hlensub l hgl
      omega

/-- On cursors all parked on `maxDoc`, the AND scoring pass equals the
reference OR sum for `maxDoc`. -/
theorem andScore_eq (score : ℕ → ℕ → ℕ → ℚ) (maxDoc : ℕ) :
    ∀ (i : ℕ) (lists : List PostingList),
    (∀ l ∈ lists, GoodCursor l ∧ l.hasMore = true ∧ l.currentDocID = maxDoc) →
    andScore score maxDoc i lists
      = sumScoreOr score maxDoc i (lists.map PostingList.toList) := by
  intro i lists
  induction lists generalizing i with
  | nil => intro _; rfl
  | cons l tl ih =>
    intro h
    obtain ⟨hg, hm, hd⟩ := h l (by simp)
    have hview : l.toList = (maxDoc, l.currentFreq)
        :: (l.buffer.drop (l.blockPos + 1) ++ l.restBlocks.flatten) := by
      rw [PostingList.toList_head hg.1 hm, hd]
    simp only [andScore, List.map_cons, sumScoreOr]
    rw [ih (i+1) (fun x hx => h x (by simp [hx])), hview,
      if_pos (by simp), freqAt_cons_self]

/-- Lifting membership and the reference score through pointwise view
inclusion: if a docID lies in every smaller view, it lies in every larger
view with the same frequency, so the reference sums agree. -/
theorem lift_sound (score : ℕ → ℕ → ℕ → ℚ) (d : ℕ) :
    ∀ {l2s ls : List PostingList},
    List.Forall₂ (fun l2 l => l2.toList ⊆ l.toList) l2s ls →
    (∀ l ∈ ls, GoodCursor l) →
    (∀ l2 ∈ l2s, d ∈ l2.toList.map Prod.fst) →
    (∀ l ∈ ls, d ∈ l.toList.map Prod.fst) ∧
    (∀ j, sumScoreOr score d j (l2s.map PostingList.toList)
        = sumScoreOr score d j (ls.map PostingList.toList)) := by
  intro l2s ls hf
  induction hf with
  | nil => intro _ _; exact ⟨by simp, fun j => rfl⟩
  | @cons l2 l l2tl ltl hsub htl ih =>
    intro hg hmem
    obtain ⟨ihmem, ihsum⟩ := ih (fun x hx => hg x (by simp [hx]))
      (fun x hx => hmem x (by simp [hx]))
    have hgl : GoodCursor l := hg l (by simp)
    have hm2 : d ∈ l2.toList.map Prod.fst := hmem l2 (by simp)
    obtain ⟨p, hpfind⟩ : ∃ p, l2.toList.find? (fun p : ℕ × ℕ => p.1 == d)
        = some p := by
      have : (l2.toList.find? (fun p : ℕ × ℕ => p.1 == d)).isSome := by
        rw [List.find?_isSome]
        rcases List.mem_map.mp hm2 with ⟨q, hq, hqd⟩
        exact ⟨q, hq, by simp [hqd]⟩
      exact Option.isSome_iff_exists.mp this
    have hpd : p.1 = d := by
      have := List.find?_some hpfind
      simpa using this
    have hpmem2 : p ∈ l2.toList := List.mem_of_find?_eq_some hpfind
    have hpmem : p ∈ l.toList := hsub hpmem2
    have hfreq2 : freqAt l2.toList d = p.2 := by
      rw [freqAt, hpfind]
      rfl
    have hfreq : freqAt l.toList d = p.2 := by
      have hasc : List.Pairwise (fun p q : ℕ × ℕ => p.1 < q.1) l.toList := hgl.2.1
      have : (d, p.2) ∈ l.toList := by
        have : p = (d, p.2) := by
          rcases p with ⟨p1, p2⟩
          simp only at hpd
          rw [hpd]
        rw [← this]
        exact hpmem
      exact freqAt_of_mem hasc this
    have hdmem : d ∈ l.toList.map Prod.fst := by
      rcases List.mem_map.mp hm2 with ⟨q, hq, hqd⟩
      exact List.mem_map.mpr ⟨q, hsub hq, hqd⟩
    constructor
    · intro x hx
      rcases List.mem_cons.mp hx with rfl | hxb
      · exact hdmem
      · exact ihmem x hxb
    · intro j
      simp only [List.map_cons, sumScoreOr]
      rw [ihsum (j+1), if_pos hm2, if_pos hdmem, hfreq2, hfreq]

/-- After `next()` on a cursor parked on `maxDoc`, every remaining docID is
strictly beyond `maxDoc`. -/
theorem next_view_gt {l2 : PostingList} {maxDoc : ℕ} (hg : GoodCursor l2)
    (hm : l2.hasMore = true) (hd : l2.currentDocID = maxDoc) :
    ∀ q ∈ (l2.next).1.toList, maxDoc < q.1 := by
  intro q hq
  have hview := (PostingList.next_spec hg.1 hm).2.1
  have hhead := PostingList.toList_head hg.1 hm
  have hasc : List.Pairwise (fun p q : ℕ × ℕ => p.1 < q.1) l2.toList := hg.2.1
  rw [hview, hhead, List.tail_cons] at hq
  rw [hhead] at hasc
  have h1 : (l2.currentDocID, l2.currentFreq).1 < q.1 :=
    List.rel_of_pairwise_cons hasc hq
  have h1b : l2.currentDocID < q.1 := h1
  omega

/-- The AND alignment pass: every cursor's view only shrinks (to a suffix of
itself), cursors stay well-formed, and when it reports `allMatch` every
cursor is valid and parked exactly on `maxDoc`. -/
theorem andAlign_spec (maxDoc : ℕ) : ∀ (lists : List PostingList),
    (∀ l ∈ lists, GoodCursor l) →
    (∀ l ∈ lists, l.hasMore = true) →
    List.Forall₂ (fun l2 l => GoodCursor l2 ∧ l2.toList ⊆ l.toList ∧
        l2.toList.length ≤ l.toList.length)
      (andAlign lists maxDoc).1 lists ∧
    ((andAlign lists maxDoc).2 = true →
      ∀ l2 ∈ (andAlign lists maxDoc).1,
        l2.hasMore = true ∧ l2.currentDocID = maxDoc) := by
  intro lists
  induction lists with
  | nil =>
    intro _ _
    exact ⟨List.Forall₂.nil, by intro _ l2 h; simp [andAlign] at h⟩
  | cons l rest ih =>
    intro hg hv
    have hgl := hg l (by simp)
    have hrefl : List.Forall₂ (fun l2 l => GoodCursor l2 ∧ l2.toList ⊆ l.toList ∧
        l2.toList.length ≤ l.toList.length) rest rest := by
      rw [List.forall₂_same]
      intro x hx
      exact ⟨hg x (by simp [hx]), fun q hq => hq, le_rfl⟩
    obtain ⟨ihf, ihm⟩ := ih (fun x hx => hg x (by simp [hx]))
      (fun x hx => hv x (by simp [hx]))
    by_cases hc1 : l.currentDocID < maxDoc
    · rcases hn : l.nextGEQ maxDoc with ⟨l2, ok⟩
      have hspec := PostingList.nextGEQ_spec l maxDoc hgl.1
      rw [hn] at hspec
      obtain ⟨hwf2, hview2, hok2, hom2⟩ := hspec
      have hgood2 : GoodCursor l2 := by
        have := good_nextGEQ hgl maxDoc
        rw [hn] at this
        exact this
      have hsub2 : l2.toList ⊆ l.toList := by
        rw [hview2]
        exact (List.dropWhile_sublist _).subset
      have hlen2 : l2.toList.length ≤ l.toList.length := by
        rw [hview2]
        exact List.Sublist.length_le (List.dropWhile_sublist _)
      have hcons2 : GoodCursor l2 ∧ l2.toList ⊆ l.toList ∧
          l2.toList.length ≤ l.toList.length := ⟨hgood2, hsub2, hlen2⟩
      cases ok with
      | false =>
        have hstep : andAlign (l :: rest) maxDoc = (l2 :: rest, false) := by
          simp only [andAlign]
          rw [if_pos (by simpa using hc1), hn]
        rw [hstep]
        exact ⟨List.Forall₂.cons hcons2 hrefl, by intro h; simp at h⟩
      | true =>
        by_cases hc2 : l2.currentDocID ≠ maxDoc
        · have hstep : andAlign (l :: rest) maxDoc = (l2 :: rest, false) := by
            simp only [andAlign]
            rw [if_pos (by simpa using hc1), hn]
            show (if decide (l2.currentDocID ≠ maxDoc) = true then (l2 :: rest, false)
              else (l2 :: (andAlign rest maxDoc).1, (andAlign rest maxDoc).2)) = _
            rw [if_pos (by simpa using hc2)]
          rw [hstep]
          exact ⟨List.Forall₂.cons hcons2 hrefl, by intro h; simp at h⟩
        · push_neg at hc2
          have hstep : andAlign (l :: rest) maxDoc
              = (l2 :: (andAlign rest maxDoc).1, (andAlign rest maxDoc).2) := by
            simp only [andAlign]
            rw [if_pos (by simpa using hc1), hn]
            show (if decide (l2.currentDocID ≠ maxDoc) = true then (l2 :: rest, false)
              else (l2 :: (andAlign rest maxDoc).1, (andAlign rest maxDoc).2)) = _
            rw [if_neg (by simp [hc2])]
          rw [hstep]
          refine ⟨List.Forall₂.cons hcons2 ihf, ?_⟩
          intro hall x hx
          rcases List.mem_cons.mp hx with rfl | hxb
          · exact ⟨hom2.symm, hc2⟩
          · exact ihm hall x hxb
    · by_cases hc2 : l.currentDocID ≠ maxDoc
      · have hstep : andAlign (l :: rest) maxDoc = (l :: rest, false) := by
          simp only [andAlign]
          rw [if_neg (by simpa using hc1), if_pos (by simpa using hc2)]
        rw [hstep]
        refine ⟨List.Forall₂.cons ⟨hgl, fun q hq => hq, le_rfl⟩ hrefl,
          by intro h; simp at h⟩
      · push_neg at hc2
        have hstep : andAlign (l :: rest) maxDoc
            = (l :: (andAlign rest maxDoc).1, (andAlign rest maxDoc).2) := by
          simp only [andAlign]
          rw [if_neg (by simpa using hc1), if_neg (by simpa using hc2)]
        rw [hstep]
        refine ⟨List.Forall₂.cons ⟨hgl, fun q hq => hq, le_rfl⟩ ihf, ?_⟩
        intro hall x hx
        rcases List.mem_cons.mp hx with rfl | hxb
        · exact ⟨hv x (by simp), hc2⟩
        · exact ihm hall x hxb

/-- A cursor already parked on `maxDoc` survives the alignment pass
untouched. -/
theorem andAlign_attainer (maxDoc : ℕ) : ∀ (lists : List PostingList),
    (∃ l0 ∈ lists, l0.hasMore = true ∧ l0.currentDocID = maxDoc) →
    ∃ l2 ∈ (andAlign lists maxDoc).1,
      l2.hasMore = true ∧ l2.currentDocID = maxDoc := by
  intro lists
  induction lists with
  | nil =>
    rintro ⟨l0, hl0, _⟩
    simp at hl0
  | cons l rest ih =>
    rintro ⟨l0, hl0, hm0, hd0⟩
    rcases List.mem_cons.mp hl0 with rfl | hl0b
    · have hstep : andAlign (l0 :: rest) maxDoc
          = (l0 :: (andAlign rest maxDoc).1, (andAlign rest maxDoc).2) := by
        simp only [andAlign]
        rw [if_neg (by simp [hd0]), if_neg (by simp [hd0])]
      rw [hstep]
      exact ⟨l0, by simp, hm0, hd0⟩
    · by_cases hc1 : l.currentDocID < maxDoc
      · rcases hn : l.nextGEQ maxDoc with ⟨l2, ok⟩
        cases ok with
        | false =>
          have hstep : andAlign (l :: rest) maxDoc = (l2 :: rest, false) := by
            simp only [andAlign]
            rw [if_pos (by simpa using hc1), hn]
          rw [hstep]
          exact ⟨l0, by simp [hl0b], hm0, hd0⟩
        | true =>
          by_cases hc2 : l2.currentDocID ≠ maxDoc
          · have hstep : andAlign (l :: rest) maxDoc = (l2 :: rest, false) := by
              simp only [andAlign]
              rw [if_pos (by simpa using hc1), hn]
              show (if decide (l2.currentDocID ≠ maxDoc) = true then (l2 :: rest, false)
                else (l2 :: (andAlign rest maxDoc).1, (andAlign rest maxDoc).2)) = _
              rw [if_pos (by simpa using hc2)]
            rw [hstep]
            exact ⟨l0, by simp [hl0b], hm0, hd0⟩
          · push_neg at hc2
            have hstep : andAlign (l :: rest) maxDoc
                = (l2 :: (andAlign rest maxDoc).1, (andAlign rest maxDoc).2) := by
              simp only [andAlign]
              rw [if_pos (by simpa using hc1), hn]
              show (if decide (l2.currentDocID ≠ maxDoc) = true then (l2 :: rest, false)
                else (l2 :: (andAlign rest maxDoc).1, (andAlign rest maxDoc).2)) = _
              rw [if_neg (by simp [hc2])]
            rw [hstep]
            rcases ih ⟨l0, hl0b, hm0, hd0⟩ with ⟨x, hx, hxp⟩
            exact ⟨x, by simp [hx], hxp⟩
      · by_cases hc2 : l.currentDocID ≠ maxDoc
        · have hstep : andAlign (l :: rest) maxDoc = (l :: rest, false) := by
            simp only [andAlign]
            rw [if_neg (by simpa using hc1), if_pos (by simpa using hc2)]
          rw [hstep]
          exact ⟨l0, by simp [hl0b], hm0, hd0⟩
        · push_neg at hc2
          have hstep : andAlign (l :: rest) maxDoc
              = (l :: (andAlign rest maxDoc).1, (andAlign rest maxDoc).2) := by
            simp only [andAlign]
            rw [if_neg (by simpa using hc1), if_neg (by simpa using hc2)]
          rw [hstep]
          rcases ih ⟨l0, hl0b, hm0, hd0⟩ with ⟨x, hx, hxp⟩
          exact ⟨x, by simp [hx], hxp⟩

/-- Master lemma for the DAAT-AND loop: with fuel beyond the remaining
posting count the loop terminates; each scored candidate lies in every
cursor's remaining postings and carries the full (= OR) reference score; and
the scored docIDs are strictly increasing, so no `d*` is scored twice. -/
theorem andTrace_master (score : ℕ → ℕ → ℕ → ℚ) :
    ∀ (fuel : ℕ) (lists : List PostingList),
    lists ≠ [] → (∀ l ∈ lists, GoodCursor l) → totalRemaining lists < fuel →
    ∃ tr, andTrace score fuel lists = some tr ∧
      (∀ p ∈ tr, (∀ l ∈ lists, p.1 ∈ l.toList.map Prod.fst) ∧
        p.2 = sumScoreOr score p.1 0 (lists.map PostingList.toList)) ∧
      List.Pairwise (fun a b : ℕ × ℚ => a.1 < b.1) tr := by
  intro fuel
  induction fuel with
  | zero => intro lists _ _ h; omega
  | succ fuel ih =>
    intro lists hne hg hfuel
    rcases hall : lists.all (fun l => l.hasMore) with _ | _
    · refine ⟨[], ?_, by simp, List.Pairwise.nil⟩
      simp only [andTrace]
      rw [if_pos hall]
    · have hv : ∀ l ∈ lists, l.hasMore = true := by
        intro l hl
        exact List.all_eq_true.mp hall l hl
      obtain ⟨hfor, hmatch⟩ := andAlign_spec (maxDocOf lists) lists hg hv
      have hg1 : ∀ l2 ∈ (andAlign lists (maxDocOf lists)).1, GoodCursor l2 := by
        intro l2 hl2
        rcases forall₂_mem_left hfor l2 hl2 with ⟨l, _, hr⟩
        exact hr.1
      have hsubs1 : List.Forall₂ (fun a b : PostingList => a.toList ⊆ b.toList)
          (andAlign lists (maxDocOf lists)).1 lists :=
        hfor.imp (fun a b h => h.2.1)
      have hle1 : totalRemaining (andAlign lists (maxDocOf lists)).1
          ≤ totalRemaining lists :=
        totalRemaining_le_of_forall₂ (hfor.imp (fun a b h => h.2.2))
      have hne1 : (andAlign lists (maxDocOf lists)).1 ≠ [] := by
        intro hcon
        apply hne
        have hlen := hfor.length_eq
        rw [hcon] at hlen
        exact List.length_eq_zero.mp hlen.symm
      obtain ⟨l0, hl0, hd0⟩ := maxDocOf_attained hne
      have hm0 := hv l0 hl0
      obtain ⟨l2a, hl2a, hm2a, hd2a⟩ :=
        andAlign_attainer (maxDocOf lists) lists ⟨l0, hl0, hm0, hd0⟩
      have hmaxlt : maxDocOf lists < UINT32_MAX := by
        rw [← hd0]
        exact current_lt_max (hg l0 hl0) hm0
      have hU : UINT32_MAX = 4294967295 := rfl
      have hmod : (maxDocOf lists + 1) % 2 ^ 32 = maxDocOf lists + 1 :=
        Nat.mod_eq_of_lt (by omega)
      rcases hr2 : (andAlign lists (maxDocOf lists)).2 with _ | _
      · -- overshoot: advance everything past maxDoc and loop
        have hdec : totalRemaining (nextGEQAll (andAlign lists (maxDocOf lists)).1
              ((maxDocOf lists + 1) % 2 ^ 32))
            < totalRemaining (andAlign lists (maxDocOf lists)).1 := by
          apply totalRemaining_nextGEQAll_lt _ _ hg1
          exact ⟨l2a, hl2a, hm2a, by rw [hmod, hd2a]; omega⟩
        have hg4 : ∀ x ∈ nextGEQAll (andAlign lists (maxDocOf lists)).1
            ((maxDocOf lists + 1) % 2 ^ 32), GoodCursor x := by
          intro x hx
          rcases List.mem_map.mp hx with ⟨y, hy, rfl⟩
          exact good_nextGEQ (hg1 y hy) _
        have hne4 : nextGEQAll (andAlign lists (maxDocOf lists)).1
            ((maxDocOf lists + 1) % 2 ^ 32) ≠ [] := by
          rw [nextGEQAll, ne_eq, List.map_eq_nil_iff]
          exact hne1
        obtain ⟨tr4, htr4, hsound4, hpw4⟩ := ih _ hne4 hg4 (by omega)
        refine ⟨tr4, ?_, ?_, hpw4⟩
        · simp only [andTrace]
          rw [if_neg (by simp [hall]), if_pos hr2]
          exact htr4
        · intro p hp
          obtain ⟨hmem4, hsum4⟩ := hsound4 p hp
          have hsubs4 : List.Forall₂ (fun a b : PostingList => a.toList ⊆ b.toList)
              (nextGEQAll (andAlign lists (maxDocOf lists)).1
                ((maxDocOf lists + 1) % 2 ^ 32))
              (andAlign lists (maxDocOf lists)).1 := by
            apply forall₂_map_self
            intro y hy
            rw [(PostingList.nextGEQ_spec y _ (hg1 y hy).1).2.1]
            exact (List.dropWhile_sublist _).subset
          have hsubs : List.Forall₂ (fun a b : PostingList => a.toList ⊆ b.toList)
              (nextGEQAll (andAlign lists (maxDocOf lists)).1
                ((maxDocOf lists + 1) % 2 ^ 32)) lists :=
            forall₂_comp (fun a b c h1 h2 => h1.trans h2) hsubs4 hsubs1
          obtain ⟨hmemL, hsumL⟩ := lift_sound score p.1 hsubs hg hmem4
          exact ⟨hmemL, by rw [hsum4, hsumL 0]⟩
      · -- all cursors aligned on maxDoc: score it, advance everything
        have hall2 := hmatch hr2
        have hdec3 : totalRemaining (nextAll (andAlign lists (maxDocOf lists)).1)
            < totalRemaining (andAlign lists (maxDocOf lists)).1 :=
          totalRemaining_nextAll_lt _ hne1
            (fun l hl => ⟨hg1 l hl, (hall2 l hl).1⟩)
        have hg3 : ∀ x ∈ nextAll (andAlign lists (maxDocOf lists)).1,
            GoodCursor x := by
          intro x hx
          rcases List.mem_map.mp hx with ⟨y, hy, rfl⟩
          exact good_next_any (hg1 y hy)
        have hne3 : nextAll (andAlign lists (maxDocOf lists)).1 ≠ [] := by
          rw [nextAll, ne_eq, List.map_eq_nil_iff]
          exact hne1
        obtain ⟨tr3, htr3, hsound3, hpw3⟩ := ih _ hne3 hg3 (by omega)
        have hscore : andScore score (maxDocOf lists) 0
              (andAlign lists (maxDocOf lists)).1
            = sumScoreOr score (maxDocOf lists) 0
              ((andAlign lists (maxDocOf lists)).1.map PostingList.toList) :=
          andScore_eq score (maxDocOf lists) 0 _
            (fun l hl => ⟨hg1 l hl, (hall2 l hl).1, (hall2 l hl).2⟩)
        have hmemall1 : ∀ l2 ∈ (andAlign lists (maxDocOf lists)).1,
            maxDocOf lists ∈ l2.toList.map Prod.fst := by
          intro l2 hl2
          have h1 := doc_mem_view (hg1 l2 hl2) (hall2 l2 hl2).1
          rw [(hall2 l2 hl2).2] at h1
          exact h1
        obtain ⟨hmemL1, hsumL1⟩ :=
          lift_sound score (maxDocOf lists) hsubs1 hg hmemall1
        have hsubs3 : List.Forall₂ (fun a b : PostingList => a.toList ⊆ b.toList)
            (nextAll (andAlign lists (maxDocOf lists)).1)
            (andAlign lists (maxDocOf lists)).1 := by
          apply forall₂_map_self
          intro y hy
          rw [(PostingList.next_spec (hg1 y hy).1 (hall2 y hy).1).2.1]
          exact (List.tail_sublist _).subset
        have hsubs03 : List.Forall₂ (fun a b : PostingList => a.toList ⊆ b.toList)
            (nextAll (andAlign lists (maxDocOf lists)).1) lists :=
          forall₂_comp (fun a b c h1 h2 => h1.trans h2) hsubs3 hsubs1
        refine ⟨(maxDocOf lists,
            andScore score (maxDocOf lists) 0 (andAlign lists (maxDocOf lists)).1)
            :: tr3, ?_, ?_, ?_⟩
        · simp only [andTrace]
          rw [if_neg (by simp [hall]), if_neg (by simp [hr2]), htr3]
        · intro p hp
          rcases List.mem_cons.mp hp with rfl | hp3
          · refine ⟨hmemL1, ?_⟩
            show andScore score (maxDocOf lists) 0 (andAlign lists (maxDocOf lists)).1
              = _
            rw [hscore, hsumL1 0]
          · obtain ⟨hmem3, hsum3⟩ := hsound3 p hp3
            obtain ⟨hmemL, hsumL⟩ := lift_sound score p.1 hsubs03 hg hmem3
            exact ⟨hmemL, by rw [hsum3, hsumL 0]⟩
        · refine List.Pairwise.cons ?_ hpw3
          intro b hb
          obtain ⟨hmem3, _⟩ := hsound3 b hb
          obtain ⟨x, hx⟩ : ∃ x, x ∈ (andAlign lists (maxDocOf lists)).1 := by
            rcases hcase : (andAlign lists (maxDocOf lists)).1 with _ | ⟨x, tl⟩
            · exact absurd hcase hne1
            · exact ⟨x, by simp⟩
          have hbmem := hmem3 ((x.next).1) (List.mem_map.mpr ⟨x, hx, rfl⟩)
          rcases List.mem_map.mp hbmem with ⟨q, hq, hq1⟩
          have := next_view_gt (hg1 x hx) (hall2 x hx).1 (hall2 x hx).2 q hq
          show (maxDocOf lists,
            andScore score (maxDocOf lists) 0 (andAlign lists (maxDocOf lists)).1).1
            < b.1
          simp only
          omega

/-- The heap update fails (reads the top of an empty heap) exactly when the
bound is 0 and the heap is empty. -/
theorem offer_none_iff {bound : ℕ} {heap : List (ℕ × ℚ)} {d : ℕ} {s : ℚ} :
    offer bound heap d s = none ↔ bound = 0 ∧ heap = [] := by
  rcases heap with _ | ⟨q, tl⟩
  · rw [offer.eq_def]
    by_cases hlen : ([] : List (ℕ × ℚ)).length < bound
    · rw [if_pos hlen]
      simp only [List.length_nil] at hlen
      simp
      omega
    · rw [if_neg hlen]
      simp only [List.length_nil] at hlen
      simp
      omega
  · rw [offer.eq_def]
    by_cases hlen : ((q :: tl) : List (ℕ × ℚ)).length < bound
    · rw [if_pos hlen]
      simp
    · rw [if_neg hlen]
      show (if heapMinScore (q :: tl) < s
          then some ((d, s) :: removeMinByScore (q :: tl))
          else some (q :: tl)) = none ↔ _
      by_cases hs : heapMinScore (q :: tl) < s
      · rw [if_pos hs]
        simp
      · rw [if_neg hs]
        simp

theorem offer_some_of_pos {bound : ℕ} (hb : 1 ≤ bound) (heap : List (ℕ × ℚ))
    (d : ℕ) (s : ℚ) : ∃ h2, offer bound heap d s = some h2 := by
  rcases hh : offer bound heap d s with _ | h2
  · rcases offer_none_iff.mp hh with ⟨h0, _⟩
    omega
  · exact ⟨h2, rfl⟩

/-- Whatever the heap update does, the heap's elements stay among the
offered candidate and the old elements. -/
theorem offer_mem {bound : ℕ} {heap h2 : List (ℕ × ℚ)} {d : ℕ} {s : ℚ}
    (h : offer bound heap d s = some h2) :
    ∀ x ∈ h2, x = (d, s) ∨ x ∈ heap := by
  intro x hx
  by_cases hlen : heap.length < bound
  · rw [offer.eq_def, if_pos hlen] at h
    rcases Option.some.inj h with rfl
    rcases List.mem_cons.mp hx with rfl | hxb
    · exact Or.inl rfl
    · exact Or.inr hxb
  · rcases heap with _ | ⟨q, tl⟩
    · rw [offer.eq_def, if_neg hlen] at h
      exact Option.noConfusion h
    · rw [offer.eq_def, if_neg hlen] at h
      have h3 : (if heapMinScore (q :: tl) < s
          then some ((d, s) :: removeMinByScore (q :: tl))
          else some (q :: tl)) = some h2 := h
      by_cases hs : heapMinScore (q :: tl) < s
      · rw [if_pos hs] at h3
        rcases Option.some.inj h3 with rfl
        rcases List.mem_cons.mp hx with rfl | hxb
        · exact Or.inl rfl
        · exact Or.inr ((List.eraseP_sublist _).subset hxb)
      · rw [if_neg hs] at h3
        rcases Option.some.inj h3 with rfl
        exact Or.inr hx

/-- Folding candidates through the heap keeps the heap inside
candidates ∪ initial heap. -/
theorem topKOf_mem : ∀ (tr : List (ℕ × ℚ)) (bound : ℕ)
    (heap res : List (ℕ × ℚ)),
    tr.foldlM (fun h p => offer bound h p.1 p.2) heap = some res →
    ∀ x ∈ res, x ∈ tr ∨ x ∈ heap := by
  intro tr
  induction tr with
  | nil =>
    intro bound heap res h x hx
    rcases Option.some.inj h with rfl
    exact Or.inr hx
  | cons p tl ih =>
    intro bound heap res h x hx
    rw [List.foldlM_cons] at h
    rcases hoff : offer bound heap p.1 p.2 with _ | h2
    · rw [hoff] at h
      have hcontra : (none : Option (List (ℕ × ℚ))) = some res := h
      exact Option.noConfusion hcontra
    · rw [hoff] at h
      have h2eq : tl.foldlM (fun h p => offer bound h p.1 p.2) h2 = some res := h
      rcases ih bound h2 res h2eq x hx with hx1 | hx2
      · exact Or.inl (by simp [hx1])
      · rcases offer_mem hoff x hx2 with hx3 | hx4
        · exact Or.inl (by simp [hx3])
        · exact Or.inr hx4

/-- With a positive bound, the heap fold never dies. -/
theorem topKOf_some_of_pos {bound : ℕ} (hb : 1 ≤ bound) :
    ∀ (tr heap : List (ℕ × ℚ)),
    ∃ res, tr.foldlM (fun h p => offer bound h p.1 p.2) heap = some res := by
  intro tr
  induction tr with
  | nil => intro heap; exact ⟨heap, rfl⟩
  | cons p tl ih =>
    intro heap
    obtain ⟨h2, hh2⟩ := offer_some_of_pos hb heap p.1 p.2
    obtain ⟨res, hres⟩ := ih h2
    refine ⟨res, ?_⟩
    rw [List.foldlM_cons, hh2]
    exact hres

/-- With a bound at least `initial heap + candidates`, every candidate is
pushed and nothing is evicted. -/
theorem topKOf_all : ∀ (tr heap : List (ℕ × ℚ)) (bound : ℕ),
    heap.length + tr.length ≤ bound →
    tr.foldlM (fun h p => offer bound h p.1 p.2) heap
      = some (tr.reverse ++ heap) := by
  intro tr
  induction tr with
  | nil => intro heap bound _; simp
  | cons p tl ih =>
    intro heap bound hb
    rw [List.foldlM_cons]
    have hlen : heap.length < bound := by
      simp only [List.length_cons] at hb
      omega
    rw [offer.eq_def, if_pos hlen]
    show tl.foldlM (fun h p => offer bound h p.1 p.2) ((p.1, p.2) :: heap)
      = some ((p :: tl).reverse ++ heap)
    rw [ih ((p.1, p.2) :: heap) bound (by simp at hb ⊢; omega)]
    congr 1
    simp

theorem minDocOf_pair (c : PostingList) : minDocOf [c, c] = minDocOf [c] := by
  simp only [minDocOf, List.foldl_cons, List.foldl_nil]
  by_cases h : (c.hasMore && decide (c.currentDocID < UINT32_MAX)) = true
  · rw [if_pos h]
    rw [if_neg (by simp)]
  · rw [if_neg h, if_neg h]

/-- Running the OR loop over the same cursor twice (a duplicated query term)
produces the same candidates with doubled scores. -/
theorem orTrace_dup (f : ℕ → ℕ → ℚ) :
    ∀ (fuel : ℕ) (c : PostingList),
      orTrace (fun _ tf d => f tf d) fuel [c, c]
        = (orTrace (fun _ tf d => f tf d) fuel [c]).map
            (List.map (fun p => (p.1, 2 * p.2))) := by
  intro fuel
  induction fuel with
  | zero => intro c; rfl
  | succ fuel ih =>
    intro c
    simp only [orTrace]
    rw [minDocOf_pair]
    by_cases hmin : minDocOf [c] = UINT32_MAX
    · rw [if_pos hmin, if_pos hmin]
      rfl
    · rw [if_neg hmin, if_neg hmin]
      by_cases hc : (c.hasMore && decide (c.currentDocID = minDocOf [c])) = true
      · have h1 : orStep (fun _ tf d => f tf d) (minDocOf [c]) 0 [c]
            = ([(c.next).1], f c.currentFreq (minDocOf [c])) := by
          simp [orStep, hc]
        have h2 : orStep (fun _ tf d => f tf d) (minDocOf [c]) 0 [c, c]
            = ([(c.next).1, (c.next).1],
               f c.currentFreq (minDocOf [c]) + f c.currentFreq (minDocOf [c])) := by
          simp [orStep, hc]
        rw [h1, h2, ih ((c.next).1)]
        rcases horw : orTrace (fun _ tf d => f tf d) fuel [(c.next).1] with _ | tr
        · rfl
        · show some ((minDocOf [c],
              f c.currentFreq (minDocOf [c]) + f c.currentFreq (minDocOf [c]))
                :: tr.map (fun p => (p.1, 2 * p.2)))
            = some (((minDocOf [c], f c.currentFreq (minDocOf [c])) :: tr).map
                (fun p => (p.1, 2 * p.2)))
          simp only [List.map_cons, Option.some.injEq, List.cons.injEq,
            Prod.mk.injEq]
          exact ⟨⟨trivial, by ring⟩, trivial⟩
      · have h1 : orStep (fun _ tf d => f tf d) (minDocOf [c]) 0 [c]
            = ([c], 0) := by
          simp [orStep, hc]
        have h2 : orStep (fun _ tf d => f tf d) (minDocOf [c]) 0 [c, c]
            = ([c, c], 0) := by
          simp [orStep, hc]
        rw [h1, h2, ih c]
        rcases horw : orTrace (fun _ tf d => f tf d) fuel [c] with _ | tr
        · rfl
        · show some ((minDocOf [c], (0 : ℚ)) :: tr.map (fun p => (p.1, 2 * p.2)))
            = some (((minDocOf [c], (0 : ℚ)) :: tr).map (fun p => (p.1, 2 * p.2)))
          simp only [List.map_cons, Option.some.injEq, List.cons.injEq,
            Prod.mk.injEq]
          exact ⟨⟨trivial, by ring⟩, trivial⟩

end Querier

/-!
The ten claims, one theorem each, over the definitions above.
-/

set_option maxRecDepth 20000 in
/-- Claim C1: writing a strictly ascending docID sequence with the merger's
block writer (blocks of up to 128 postings, each block prefixed by its
VarByte length, first gap equal to the block's absolute first docID, gap
base reset to 0 at every block boundary) and decoding all blocks with the
cursor's block loader recovers exactly the original sequence; a 129-posting
list produces two blocks of lengths 128 and 1, the 129th docID being
encoded as an absolute value in the second block. -/
theorem C1_block_roundtrip (docIDs : List ℕ)
    (h : List.Pairwise (· < ·) docIDs) :
    Cursor.loadDocIDBlocks (Merger.toBlocks docIDs).length
        (Merger.writeDocIDs docIDs) = some docIDs ∧
    (Merger.toBlocks (List.range 129)).map List.length = [128, 1] ∧
    Merger.writeDocIDs (List.range 129)
      = Merger.writeDocIDsBlock (List.range 128)
          ++ (varbyte.encode 1 ++ varbyte.encode 128) := by
  refine ⟨Cursor.loadDocIDBlocks_writeDocIDs docIDs h, by decide, by decide⟩

/-- The C1 round trip evaluated at the concrete ascending list
`[3, 9, 17]`. -/
theorem C1_block_roundtrip_witness :
    Cursor.loadDocIDBlocks (Merger.toBlocks [3, 9, 17]).length
        (Merger.writeDocIDs [3, 9, 17]) = some [3, 9, 17] :=
  (C1_block_roundtrip [3, 9, 17] (by decide)).1

/-- Claim C3: for every 32-bit value, decoding the VarByte encoder's bytes
yields the value back; the byte count is 1 for `v = 0` and
`⌈(⌊log₂ v⌋ + 1) / 7⌉` otherwise; and 0, 127, 128 and 300 encode exactly as
the spec lists them (continuation bit set on every non-terminal byte, clear
on the terminal one, least-significant 7 bits first). -/
theorem C3_varbyte_roundtrip (v : ℕ) (hv : v < 2 ^ 32) :
    varbyte.decode (varbyte.encode v) = some (v, []) ∧
    (varbyte.encode v).length
      = (if v = 0 then 1 else (Nat.log 2 v + 1 + 6) / 7) ∧
    varbyte.encode 0 = [0x00] ∧ varbyte.encode 127 = [0x7F] ∧
    varbyte.encode 128 = [0x80, 0x01] ∧ varbyte.encode 300 = [0xAC, 0x02] := by
  refine ⟨varbyte.decode_encode v, ?_, by decide, by decide, by decide,
    by decide⟩
  by_cases h0 : v = 0
  · subst h0
    rw [if_pos rfl]
    decide
  · rw [if_neg h0]
    exact varbyte.encode_length_pos (by omega)

/-- The C3 round trip and length formula evaluated at `v = 300`. -/
theorem C3_varbyte_roundtrip_witness :
    varbyte.decode (varbyte.encode 300) = some (300, []) ∧
    (varbyte.encode 300).length
      = (if 300 = 0 then 1 else (Nat.log 2 300 + 1 + 6) / 7) :=
  ⟨(C3_varbyte_roundtrip 300 (by decide)).1,
   (C3_varbyte_roundtrip 300 (by decide)).2.1⟩

/-- Claim C7 is a code bug: on a stream truncated mid-value, every byte the
decode loop sees keeps the continuation bit set — including the 0xFF that
`is.get()` cast to `unsigned char` produces at end-of-stream — so the
do/while loop of `varbyte::decode` never exits, whatever iteration count it
is allowed; the decoder loops instead of reporting end-of-stream. -/
theorem C7_truncated_decode_loops :
    (∀ fuel value shift,
      varbyte.decodeAux fuel [0x80] value shift = none) ∧
    varbyte.decode [0x80] = none := by
  constructor
  · intro fuel value shift
    exact varbyte.decodeAux_none_of_truncated fuel [0x80] (by decide)
      value shift
  · exact varbyte.decodeAux_none_of_truncated 2 [0x80] (by decide) 0 0

/-- Claim C8 is a code bug: a line with two TABs whose docID or tf field is
not numeric is NOT warned-and-skipped — the merger feeds the field straight
to `std::stoul` with no handler on the path, so the thrown
`std::invalid_argument` aborts the whole merge (the scan dies), while only
lines with fewer than two TABs take the warn-and-skip branch. -/
theorem C8_malformed_aborts :
    Merger.parsePostingLine "doc\tabc\t3" = Merger.MergerLine.aborted ∧
    Merger.parsePostingLine "no tabs here" = Merger.MergerLine.malformed ∧
    Merger.mergerScan ["t1\t0\t2", "doc\tabc\t3", "t2\t1\t1"] = none := by
  refine ⟨by decide, by decide, by decide⟩

/-- `find?` of "≥ target" and `dropWhile` of "< target" expose the same
first element of a list of naturals. -/
theorem find_ge_eq_head_dropWhile (target : ℕ) : ∀ xs : List ℕ,
    xs.find? (fun d => decide (target ≤ d))
      = (xs.dropWhile (fun d => decide (d < target))).head? := by
  intro xs
  induction xs with
  | nil => rfl
  | cons x tl ih =>
    by_cases hx : target ≤ x
    · have h1 : (x :: tl).find? (fun d => decide (target ≤ d)) = some x :=
        List.find?_cons_of_pos _ (by simp only [decide_eq_true_eq]; omega)
      have h2 : (x :: tl).dropWhile (fun d => decide (d < target))
          = x :: tl :=
        List.dropWhile_cons_of_neg (by simp only [decide_eq_true_eq]; omega)
      rw [h1, h2]
      rfl
    · have h1 : (x :: tl).find? (fun d => decide (target ≤ d))
          = tl.find? (fun d => decide (target ≤ d)) :=
        List.find?_cons_of_neg _ (by simp only [decide_eq_true_eq]; omega)
      have h2 : (x :: tl).dropWhile (fun d => decide (d < target))
          = tl.dropWhile (fun d => decide (d < target)) :=
        List.dropWhile_cons_of_pos (by simp only [decide_eq_true_eq]; omega)
      rw [h1, h2, ih]

/-- Dropping the sub-`target` prefix commutes with projecting docIDs. -/
theorem dropWhile_map_fst (target : ℕ) : ∀ l : List (ℕ × ℕ),
    (l.dropWhile (fun p => decide (p.1 < target))).map Prod.fst
      = (l.map Prod.fst).dropWhile (fun d => decide (d < target)) := by
  intro l
  induction l with
  | nil => rfl
  | cons p tl ih =>
    by_cases hp : p.1 < target
    · have h1 : ((p :: tl).dropWhile (fun q => decide (q.1 < target)))
          = tl.dropWhile (fun q => decide (q.1 < target)) :=
        List.dropWhile_cons_of_pos (by simp only [decide_eq_true_eq]; omega)
      have h2 : ((p.1 :: tl.map Prod.fst).dropWhile
            (fun d => decide (d < target)))
          = (tl.map Prod.fst).dropWhile (fun d => decide (d < target)) :=
        List.dropWhile_cons_of_pos (by simp only [decide_eq_true_eq]; omega)
      rw [List.map_cons, h1, h2, ih]
    · have h1 : ((p :: tl).dropWhile (fun q => decide (q.1 < target)))
          = p :: tl :=
        List.dropWhile_cons_of_neg (by simp only [decide_eq_true_eq]; omega)
      have h2 : ((p.1 :: tl.map Prod.fst).dropWhile
            (fun d => decide (d < target)))
          = p.1 :: tl.map Prod.fst :=
        List.dropWhile_cons_of_neg (by simp only [decide_eq_true_eq]; omega)
      rw [List.map_cons, h1, h2, List.map_cons]

set_option linter.unusedVariables false in
/-- Claim C2: the `nextGEQ` contract on a well-formed cursor over a strictly
ascending posting list: when it returns `true` the cursor is valid and
`doc()` is the first docID `≥ target` of the remaining list; when it returns
`false` the cursor is invalid and every remaining docID was `< target`. -/
theorem C2_nextGEQ_contract (c : PostingList) (target : ℕ)
    (hwf : c.WF) (hasc : c.Ascending) :
    ((c.nextGEQ target).2 = true →
      (c.nextGEQ target).1.valid = true ∧
      target ≤ (c.nextGEQ target).1.doc ∧
      some (c.nextGEQ target).1.doc
        = (c.toList.map Prod.fst).find? (fun d => decide (target ≤ d))) ∧
    ((c.nextGEQ target).2 = false →
      (c.nextGEQ target).1.valid = false ∧
      ∀ d ∈ c.toList.map Prod.fst, d < target) := by
  obtain ⟨hwf2, hview, hok, hmore⟩ := PostingList.nextGEQ_spec c target hwf
  constructor
  · intro htrue
    have hval : (c.nextGEQ target).1.hasMore = true := by
      rw [← hmore]
      exact htrue
    have hfind : (c.toList.map Prod.fst).find? (fun d => decide (target ≤ d))
        = some (c.nextGEQ target).1.currentDocID := by
      rw [find_ge_eq_head_dropWhile, ← dropWhile_map_fst, ← hview,
        PostingList.toList_head hwf2 hval]
      rfl
    refine ⟨hval, ?_, hfind.symm⟩
    have hp := List.find?_some hfind
    simpa using hp
  · intro hfalse
    have hval : (c.nextGEQ target).1.hasMore = false := by
      rw [← hmore]
      exact hfalse
    refine ⟨hval, ?_⟩
    have hnil : (c.nextGEQ target).1.toList = [] := by
      have h1 : (!(c.nextGEQ target).1.toList.isEmpty) = false := by
        rw [← hok]
        exact hfalse
      rcases hE : (c.nextGEQ target).1.toList with _ | _
      · rfl
      · rw [hE] at h1
        simp at h1
    rw [hview] at hnil
    intro d hd
    rcases List.mem_map.mp hd with ⟨p, hp, rfl⟩
    have hdrop := List.dropWhile_eq_nil_iff.mp hnil p hp
    simpa using hdrop

/-- The C2 contract applied to a concrete cursor (postings
`[(3,1), (9,2), (17,3), (40,1)]`) and target 10: it lands on docID 17. -/
theorem C2_nextGEQ_contract_witness :
    ((Fixtures.cursorA.nextGEQ 10).2 = true →
      (Fixtures.cursorA.nextGEQ 10).1.valid = true ∧
      10 ≤ (Fixtures.cursorA.nextGEQ 10).1.doc ∧
      some (Fixtures.cursorA.nextGEQ 10).1.doc
        = (Fixtures.cursorA.toList.map Prod.fst).find?
            (fun d => decide (10 ≤ d))) ∧
    ((Fixtures.cursorA.nextGEQ 10).2 = false →
      (Fixtures.cursorA.nextGEQ 10).1.valid = false ∧
      ∀ d ∈ Fixtures.cursorA.toList.map Prod.fst, d < 10) :=
  C2_nextGEQ_contract Fixtures.cursorA 10 (by decide) (by decide)

/-- Claim C4 counterexample: `processQuery` does not deduplicate — on the
one-term index the query `["a", "a"]` returns a different (double-scored)
result than the deduplicated query `["a"]`. -/
theorem C4_dedup_counterexample :
    Querier.processQuery (fun _ _ _ => (1 : ℚ)) Fixtures.idxA
        ["a", "a"] "or" 10
      ≠ Querier.processQuery (fun _ _ _ => (1 : ℚ)) Fixtures.idxA
        ["a"] "or" 10 := by
  have h1 : Querier.processQuery (fun _ _ _ => (1 : ℚ)) Fixtures.idxA
      ["a", "a"] "or" 10 = some [(0, (1 : ℚ) + (1 + 0))] := rfl
  have h2 : Querier.processQuery (fun _ _ _ => (1 : ℚ)) Fixtures.idxA
      ["a"] "or" 10 = some [(0, (1 : ℚ) + 0)] := rfl
  rw [h1, h2]
  simp only [ne_eq, Option.some.injEq, List.cons.injEq, Prod.mk.injEq]
  norm_num

/-- Claim C4 (amended): deduplication is NOT the evaluator's responsibility
in this code — `processQuery`'s opening loop opens one cursor per term
OCCURRENCE, so a duplicated term opens two cursors, and the DAAT-OR loop
over the duplicated cursor yields exactly the candidates of the single
cursor with doubled scores.  The callers deduplicate instead (they pass the
tokens through an `unordered_set` before calling `processQuery`). -/
theorem C4_no_dedup_amended (f : ℕ → ℕ → ℚ) (t : String)
    (index : String → Option (List (List (ℕ × ℕ)))) :
    (Querier.openCursors index [t, t]).length
      = 2 * (Querier.openCursors index [t]).length ∧
    ∀ (fuel : ℕ) (c : PostingList),
      Querier.orTrace (fun _ tf d => f tf d) fuel [c, c]
        = (Querier.orTrace (fun _ tf d => f tf d) fuel [c]).map
            (List.map (fun p => (p.1, 2 * p.2))) := by
  constructor
  · rcases h : (index t).bind PostingList.openBlocks with _ | c
    · simp [Querier.openCursors, List.filterMap_cons, h]
    · simp [Querier.openCursors, List.filterMap_cons, h]
  · intro fuel c
    exact Querier.orTrace_dup f fuel c

/-- Claim C9: the mode dispatch of `processQuery` is the exact,
case-sensitive test `mode == "and"`: every other mode string (including
`"AND"` and `"And"`) falls to the OR evaluator, and the lowercased
`lowerMode` the function computes is never consulted. -/
theorem C9_mode_case_sensitive (score : ℕ → ℕ → ℕ → ℚ)
    (index : String → Option (List (List (ℕ × ℕ))))
    (queryTerms : List String) (k : ℤ) (mode : String)
    (hmode : mode ≠ "and") :
    Querier.processQuery score index queryTerms mode k
      = Querier.processQuery score index queryTerms "or" k := by
  have hbeq : (mode == "and") = false := by
    rcases hb : mode == "and" with _ | _
    · rfl
    · exact absurd (eq_of_beq hb) hmode
  simp [Querier.processQuery, hbeq]

/-- C9 at mode `"AND"`: over the two-term index it is evaluated as OR. -/
theorem C9_mode_case_sensitive_witness :
    Querier.processQuery (fun _ tf _ => (tf : ℚ)) Fixtures.idxAB
        ["a", "b"] "AND" 10
      = Querier.processQuery (fun _ tf _ => (tf : ℚ)) Fixtures.idxAB
        ["a", "b"] "or" 10 :=
  C9_mode_case_sensitive (fun _ tf _ => (tf : ℚ)) Fixtures.idxAB
    ["a", "b"] 10 "AND" (by decide)

/-- Claim C10 counterexample: a negative `k` does NOT reach the empty-heap
read the claim predicts — cast through `size_t` it becomes an enormous
bound, so the first candidate is simply pushed and the fold succeeds. -/
theorem C10_negative_k_counterexample :
    Querier.topKOf (Querier.sizeTCast (-1)) [(0, (1 : ℚ))]
      = some [(0, 1)] := by
  decide

/-- Claim C10 (amended): the empty-heap `top()` read happens exactly at
`k = 0`: for `int` values `k ≥ 1`, and also for every negative `k` (the
`size_t` cast makes the bound enormous, so the heap always has room), the
top-K fold never reads an empty heap's top, while at `k = 0` the FIRST
candidate offered already does. -/
theorem C10_topK_empty_heap (k : ℤ) (hk1 : -2 ^ 31 ≤ k) (hk2 : k < 2 ^ 31) :
    (1 ≤ k → ∀ tr : List (ℕ × ℚ),
      Querier.topKOf (Querier.sizeTCast k) tr ≠ none) ∧
    (k < 0 → ∀ tr : List (ℕ × ℚ),
      Querier.topKOf (Querier.sizeTCast k) tr ≠ none) ∧
    (k = 0 → ∀ (d : ℕ) (s : ℚ) (tr : List (ℕ × ℚ)),
      Querier.topKOf (Querier.sizeTCast k) ((d, s) :: tr) = none) := by
  refine ⟨?_, ?_, ?_⟩
  · intro hk tr
    have hb : 1 ≤ Querier.sizeTCast k := by
      unfold Querier.sizeTCast
      omega
    obtain ⟨res, hres⟩ := Querier.topKOf_some_of_pos hb tr []
    simp [Querier.topKOf, hres]
  · intro hk tr
    have hb : 1 ≤ Querier.sizeTCast k := by
      unfold Querier.sizeTCast
      omega
    obtain ⟨res, hres⟩ := Querier.topKOf_some_of_pos hb tr []
    simp [Querier.topKOf, hres]
  · intro hk d s tr
    subst hk
    have h0 : Querier.sizeTCast 0 = 0 := by decide
    rw [h0]
    show (Querier.offer 0 [] d s >>= fun h2 =>
        tr.foldlM (fun h p => Querier.offer 0 h p.1 p.2) h2) = none
    have hoff : Querier.offer 0 [] d s = none :=
      Querier.offer_none_iff.mpr ⟨rfl, rfl⟩
    rw [hoff]
    rfl

/-- C10 at `k = 0`: the very first candidate makes the heap code read the
top of an empty priority queue. -/
theorem C10_topK_empty_heap_witness :
    Querier.topKOf (Querier.sizeTCast 0) [((0 : ℕ), (1 : ℚ))] = none :=
  (C10_topK_empty_heap 0 (by decide) (by decide)).2.2 rfl 0 1 []

/-- Claim C5: over the same cursors and score model, every `(docID, score)`
pair the AND evaluator returns is among the pairs the OR evaluator returns
with unbounded `k` — AND's docIDs are a subset of OR's, with identical
scores on the common docIDs. -/
theorem C5_and_subset_or (score : ℕ → ℕ → ℕ → ℚ) (lists : List PostingList)
    (k : ℤ) (hk : 1 ≤ k) (hk2 : k < 2 ^ 31) (hne : lists ≠ [])
    (hg : ∀ l ∈ lists, Querier.GoodCursor l) :
    ∃ resA resO,
      Querier.evaluateAND score lists k = some resA ∧
      Querier.evaluateORUnbounded score lists = some resO ∧
      ∀ p ∈ resA, p ∈ resO := by
  obtain ⟨trA, hA, hAsound, hApw⟩ :=
    Querier.andTrace_master score (Querier.totalRemaining lists + 1) lists
      hne hg (by omega)
  obtain ⟨trO, hO, hOcomp, hOsound, hOpw⟩ :=
    Querier.orTrace_master score (Querier.totalRemaining lists + 1) lists
      hg (by omega)
  have hb : 1 ≤ Querier.sizeTCast k := by
    unfold Querier.sizeTCast
    omega
  obtain ⟨resA, hresA⟩ := Querier.topKOf_some_of_pos hb trA []
  refine ⟨resA, trO.reverse, ?_, ?_, ?_⟩
  · show (match Querier.andTrace score (Querier.totalRemaining lists + 1)
        lists with
      | none => none
      | some tr => Querier.topKOf (Querier.sizeTCast k) tr) = some resA
    rw [hA]
    exact hresA
  · show (match Querier.orTrace score (Querier.totalRemaining lists + 1)
        lists with
      | none => none
      | some tr => Querier.topKOf tr.length tr) = some trO.reverse
    rw [hO]
    show trO.foldlM (fun h p => Querier.offer trO.length h p.1 p.2) []
      = some trO.reverse
    have hall := Querier.topKOf_all trO [] trO.length (by simp)
    rw [hall]
    simp
  · intro p hp
    have hmem : p ∈ trA := by
      rcases Querier.topKOf_mem trA (Querier.sizeTCast k) [] resA hresA p hp
        with h | h
      · exact h
      · simp at h
    obtain ⟨hall2, hscore⟩ := hAsound p hmem
    rcases hlists : lists with _ | ⟨l0, rest⟩
    · exact absurd hlists hne
    · rw [hlists] at hOcomp hall2 hscore
      have hd : (p.1, Querier.sumScoreOr score p.1 0
          ((l0 :: rest).map PostingList.toList)) ∈ trO :=
        hOcomp p.1 ⟨l0, by simp, hall2 l0 (by simp)⟩
      have hpe : p = (p.1, Querier.sumScoreOr score p.1 0
          ((l0 :: rest).map PostingList.toList)) := by
        rcases p with ⟨d, s⟩
        simp only [Prod.mk.injEq]
        exact ⟨trivial, hscore⟩
      rw [List.mem_reverse, hpe]
      exact hd

/-- C5 on two concrete cursors (postings `[(0,1), (1,2)]` and `[(1,3)]`)
with `k = 10` and the tf score model. -/
theorem C5_and_subset_or_witness :
    ∃ resA resO,
      Querier.evaluateAND (fun _ tf _ => (tf : ℚ))
          [Fixtures.cursorB, Fixtures.cursorC] 10 = some resA ∧
      Querier.evaluateORUnbounded (fun _ tf _ => (tf : ℚ))
          [Fixtures.cursorB, Fixtures.cursorC] = some resO ∧
      ∀ p ∈ resA, p ∈ resO :=
  C5_and_subset_or (fun _ tf _ => (tf : ℚ))
    [Fixtures.cursorB, Fixtures.cursorC] 10 (by decide) (by decide)
    (List.cons_ne_nil _ _) (by decide)

/-- Claim C6: the DAAT-AND loop makes forward progress and terminates on
every nonempty set of well-formed, strictly ascending cursors — with fuel
one more than the total number of remaining postings it completes (returns
a trace rather than running out), even through the overshoot branch, and
the strictly increasing candidate docIDs show no `d*` is ever scored
twice. -/
theorem C6_and_terminates (score : ℕ → ℕ → ℕ → ℚ)
    (lists : List PostingList) (hne : lists ≠ [])
    (hg : ∀ l ∈ lists, Querier.GoodCursor l) :
    ∃ tr,
      Querier.andTrace score (Querier.totalRemaining lists + 1) lists
        = some tr ∧
      List.Pairwise (fun a b : ℕ × ℚ => a.1 < b.1) tr := by
  obtain ⟨tr, h1, _, h3⟩ :=
    Querier.andTrace_master score (Querier.totalRemaining lists + 1) lists
      hne hg (by omega)
  exact ⟨tr, h1, h3⟩

/-- C6 on two concrete cursors (postings `[(0,1), (5,1)]` and
`[(2,1), (7,1)]`) whose alignment overshoots: aligning to docID 2 lands the
first cursor on 5, then aligning to 5 lands the second on 7, and the loop
still terminates with an empty trace. -/
theorem C6_and_terminates_witness :
    ∃ tr,
      Querier.andTrace (fun _ _ _ => (1 : ℚ))
          (Querier.totalRemaining [Fixtures.cursorD, Fixtures.cursorE] + 1)
          [Fixtures.cursorD, Fixtures.cursorE] = some tr ∧
      List.Pairwise (fun a b : ℕ × ℚ => a.1 < b.1) tr :=
  C6_and_terminates (fun _ _ _ => (1 : ℚ))
    [Fixtures.cursorD, Fixtures.cursorE] (List.cons_ne_nil _ _) (by decide)
